import Mathlib

/-!
Shallow embedding of the cycle-combination finder
(`src/cycle_combination_finder/src/optimal_combination_structures.py` together
with the data model of `common_types.py`), and proofs about it.

Conventions used throughout:
* Python tuples/lists become Lean `List`s; Python `set`s of tuples become
  `Finset`s of lists.
* Python `None`-able values become `Option`s.
* Python `sorted`/`list.sort` (Timsort, a stable sort) is modelled by
  `List.insertionSort`, which is also stable; `reverse=True`/`key=...` sorts
  use the relation `fun a b => key b ≤ key a`.
* Machine integers are `Nat`/`Int` (Python integers are unbounded, so no
  wrap-around modelling is needed).
* Fallible code (a `raise`, or an operation on data the function rejects)
  returns an `Option`.
-/

namespace Qter

/-- `common_types.OrientationSumConstraint`: the `ZERO`/`NONE` enum. -/
inductive OrientationSumConstraint where
  | ZERO
  | NONE
deriving DecidableEq, Repr

/-- `common_types.OrientationStatus`: either `CannotOrient` or
`CanOrient(count, sum_constraint)`. -/
inductive OrientationStatus where
  | CannotOrient
  | CanOrient (count : Nat) (sum_constraint : OrientationSumConstraint)
deriving DecidableEq, Repr

/-- `common_types.Orbit` namedtuple. -/
structure Orbit where
  name : String
  cubie_count : Nat
  orientation_status : OrientationStatus
deriving DecidableEq, Repr

/-- `common_types.EvenParityConstraint` namedtuple. -/
structure EvenParityConstraint where
  orbit_names : List String
deriving DecidableEq, Repr

/-- `common_types.PuzzleOrbitDefinition` namedtuple. -/
structure PuzzleOrbitDefinition where
  orbits : List Orbit
  even_parity_constraints : List EvenParityConstraint
deriving DecidableEq, Repr

/-- `CubiePartition` namedtuple of `optimal_combination_structures.py`. -/
structure CubiePartition where
  name : String
  partition : List Nat
  order : Nat
  always_orient : Option (List Nat)
  critical_orient : Option (List Nat)
deriving DecidableEq, Repr

/-- `Cycle` namedtuple.  `partition_objs` is a copy of the search's
`partition_obj_path` array, whose slots start out as `None`; hence the
`Option`. -/
structure Cycle where
  order : Nat
  share : List Bool
  partition_objs : List (Option CubiePartition)
deriving DecidableEq, Repr

/-- `CycleCombination` namedtuple.  A member of `share_orders` is one donor
choice: for each cycle index `j` (outer), for each orbit (inner), whether
cycle `j` was chosen as a donor for that orbit. -/
structure CycleCombination where
  used_cubie_counts : List Nat
  order_product : Nat
  share_orders : List (List (List Bool))
  cycle_combination : List Cycle
deriving DecidableEq, Repr

/-- `ShareState` enum. -/
inductive ShareState where
  | FREE
  | CANNOT_SHARE_ORIENTATION
  | MUST_SHARE_ORIENTATION
deriving DecidableEq, Repr

/-- `EvenParityConstraintsHelper` dataclass (lines 62-66). -/
structure EvenParityConstraintsHelper where
  first_constraint_indicies : List Nat
  rest_constraint_flags : List (List Bool)
  constraint_orbit_flags : List Bool
deriving DecidableEq, Repr

/-- `sign(partition)`: the source returns `sum(partition) - len(partition)`
(note: the source does NOT reduce modulo 2; every use site reduces mod 2). -/
def sign (partition : List Nat) : Int :=
  (partition.sum : Int) - partition.length

/-- `p_adic_valuation(n, p)`: repeated division.  The source's `while` loop
terminates only for `p ≥ 2` (for `p = 1` it loops forever and for `p = 0` it
raises `ZeroDivisionError`); every call site passes an orientation count,
which is `≥ 2` for well-formed puzzles, so we guard the loop with `2 ≤ p`. -/
def p_adic_valuation (n p : Nat) : Nat :=
  if h : 2 ≤ p ∧ n % p = 0 ∧ n ≠ 0 then
    p_adic_valuation (n / p) p + 1
  else
    0
termination_by n
decreasing_by exact Nat.div_lt_self (Nat.pos_of_ne_zero h.2.2) (by omega)

/-- `math.lcm(*partition)` (the empty lcm is `1`). -/
def lcmList (l : List Nat) : Nat :=
  l.foldl Nat.lcm 1

/-- Python tuple comparison, `≤` direction: lexicographic by the strict
component comparison `lt`, a strict prefix being smaller. -/
def lexLe {α : Type} (lt : α → α → Bool) : List α → List α → Bool
  | [], _ => true
  | _ :: _, [] => false
  | a :: as, b :: bs => if lt a b then true else if lt b a then false else lexLe lt as bs

/-- Python `<=` on tuples of integers. -/
def natListLe (a b : List Nat) : Bool :=
  lexLe (fun x y => decide (x < y)) a b

/-- Python `<` on tuples of integers. -/
def natListLt (a b : List Nat) : Bool :=
  natListLe a b && !natListLe b a

/-- A Python `set.add` on a set represented as an insertion-ordered
duplicate-free list. -/
def setInsert (x : List Nat) (s : List (List Nat)) : List (List Nat) :=
  if x ∈ s then s else s ++ [x]

/-- `integer_partitions(n)`: the memoized set recursion from the source
(lines 129-152).  The Python `set` is modelled as an insertion-ordered
duplicate-free list (Python's own iteration order is hash-based and carries
no meaning); `sorted((x,) + y)` is `List.insertionSort (· ≤ ·) (x :: y)`;
`range(1, n)` is `List.range' 1 (n - 1)`. -/
def integer_partitions : Nat → List (List Nat)
  | 0 => [[]]
  | n + 1 =>
    (List.range' 1 n).attach.foldl
      (fun answer x =>
        (integer_partitions (n + 1 - x.1)).foldl
          (fun answer y => setInsert (List.insertionSort (· ≤ ·) (x.1 :: y)) answer)
          answer)
      [[n + 1]]
termination_by n => n
decreasing_by
  have hx : 1 ≤ x.1 ∧ x.1 < 1 + n := List.mem_range'_1.mp x.2
  omega

/-- One step of the `for j, permutation_order in enumerate(partition)` loop of
`reduced_integer_partitions` (lines 597-611), threading
`(max_p_adic_valuation, critical_orient, always_orient)`.  `max` starts at
`-1`, hence the `Int`.  In the `curr == max` branch the source appends to
`critical_orient`, which cannot be `None` there (`max ≥ 0` only after it was
set); `Option.map` realizes the same update totally. -/
def alwaysCriticalStep (orientation_count : Nat)
    (st : Int × Option (List Nat) × Option (List Nat)) (jx : Nat × Nat) :
    Int × Option (List Nat) × Option (List Nat) :=
  ((if (p_adic_valuation jx.2 orientation_count : Int) > st.1 then
      (p_adic_valuation jx.2 orientation_count : Int)
    else st.1),
   (if (p_adic_valuation jx.2 orientation_count : Int) > st.1 then some [jx.1]
    else if (p_adic_valuation jx.2 orientation_count : Int) = st.1 then
      st.2.1.map (fun l => l ++ [jx.1])
    else st.2.1),
   (if jx.2 = 1 then some ((st.2.2.getD []) ++ [jx.1]) else st.2.2))

/-- The `always_orient`/`critical_orient` classification of a partition
(lines 590-611), returned as `(always_orient, critical_orient)`. -/
def alwaysCritical (orientation_count : Nat) (partition : List Nat) :
    Option (List Nat) × Option (List Nat) :=
  ((partition.enum.foldl (alwaysCriticalStep orientation_count) (-1, none, none)).2.2,
   (partition.enum.foldl (alwaysCriticalStep orientation_count) (-1, none, none)).2.1)

/-- `critical_is_disjoint` of lines 619-622, on the
`(always_orient, critical_orient)` pair: the critical set exists and meets
no always-orient index. -/
def criticalIsDisjoint (ac : Option (List Nat) × Option (List Nat)) : Bool :=
  ac.2.isSome &&
    (ac.1.isNone || (ac.2.getD []).all (fun j => !(ac.1.getD []).contains j))

/-- `orient_count` of lines 618-624: the number of always-orient indices,
plus one when the critical set is disjoint from them. -/
def orientCount (ac : Option (List Nat) × Option (List Nat)) : Nat :=
  (ac.1.map List.length).getD 0 + (if criticalIsDisjoint ac then 1 else 0)

/-- `unorient_critical` of lines 625-630: every position must orient, and
the zero-sum constraint cannot be repaired while keeping the critical
orientation. -/
def unorientCritical (orientation_count : Nat) (partition : List Nat)
    (ac : Option (List Nat) × Option (List Nat)) : Bool :=
  decide (orientCount ac = partition.length) &&
    ((decide (orientation_count = 2) && decide (orientCount ac % 2 = 1)) ||
      (decide (orientation_count > 2) && decide (orientCount ac = 1)))

/-- The per-partition body of `reduced_integer_partitions` (lines 584-649;
spec §4.2 "OrderFromPartition"): computes the realized order and the
always/critical index lists, and either returns the `CubiePartition` or
rejects the partition (`none` models the `continue` on line 633).  The
source's `assert len(critical_orient) == 1` on line 634 is a runtime check,
not control flow; it is omitted here and proved to hold (claim C5). -/
def orderFromPartition (orbit : Orbit) (partition : List Nat) : Option CubiePartition :=
  let lcm := lcmList partition
  match orbit.orientation_status with
  | OrientationStatus.CannotOrient =>
    some ⟨orbit.name, partition, lcm, none, none⟩
  | OrientationStatus.CanOrient orientation_count sc =>
    let ac := alwaysCritical orientation_count partition
    match sc with
    | OrientationSumConstraint.NONE =>
      some ⟨orbit.name, partition,
        if ac.2.isSome then lcm * orientation_count else lcm,
        ac.1, ac.2⟩
    | OrientationSumConstraint.ZERO =>
      if unorientCritical orientation_count partition ac then
        if !criticalIsDisjoint ac then none
        else some ⟨orbit.name, partition, lcm, ac.1, none⟩
      else if orientCount ac ≠ 0 then
        some ⟨orbit.name, partition, lcm * orientation_count, ac.1, ac.2⟩
      else
        some ⟨orbit.name, partition, lcm, ac.1, ac.2⟩

/-- The domination test inside `reduced_integer_partitions` (lines 660-674):
`p.order` is a strict multiple of `q.order`, and either the orbit is in no
parity constraint or the two partitions' signatures agree mod 2. -/
def domCond (constraint_flag : Bool) (p q : CubiePartition) : Bool :=
  decide (p.order % q.order = 0) && decide (p.order ≠ q.order) &&
    (!constraint_flag || decide ((sign p.partition + sign q.partition) % 2 = 0))

/-- The `dominated`-flag elimination loop of `reduced_integer_partitions`
(lines 652-676).  In the source, entry `j` is marked dominated exactly when
some earlier entry that itself survived (and so was appended to the output)
passes the domination test against `j`, and an entry is appended iff it was
never marked; that is the incremental filter below: keep `q` iff no
already-kept `p` dominates it. -/
def reduceDominated (constraint_flag : Bool) (l : List CubiePartition) : List CubiePartition :=
  l.foldl
    (fun kept q =>
      if kept.any (fun p => domCond constraint_flag p q) then kept else kept ++ [q])
    []

/-- Stand-in for an out-of-range `puzzle_orbit_definition.orbits[i]` access
(which would raise in the source; all call sites stay in range). -/
def defaultOrbit : Orbit := ⟨"", 0, OrientationStatus.CannotOrient⟩

/-- The sorted `partition_objs` list `reduced_integer_partitions` builds
before the domination reduction (lines 582-651): every integer partition of
the budget (with a `1` prepended when the share flag `s` is set) is run
through the order computation; survivors are sorted by realized order,
descending (stable). -/
def partitionObjsSorted (cycle_cubie_count orbit_index : Nat) (s : Bool)
    (pz : PuzzleOrbitDefinition) : List CubiePartition :=
  let orbit := pz.orbits.getD orbit_index defaultOrbit
  let objs := (integer_partitions cycle_cubie_count).filterMap
    (fun p => orderFromPartition orbit (if s then 1 :: p else p))
  List.insertionSort (fun a b => b.order ≤ a.order) objs

/-- `reduced_integer_partitions(cycle_cubie_count, orbit_index, s, puzzle,
helper)` (lines 574-676). -/
def reduced_integer_partitions (cycle_cubie_count orbit_index : Nat) (s : Bool)
    (pz : PuzzleOrbitDefinition) (h : EvenParityConstraintsHelper) : List CubiePartition :=
  reduceDominated (h.constraint_orbit_flags.getD orbit_index false)
    (partitionObjsSorted cycle_cubie_count orbit_index s pz)

/-- The `for i, orbit in enumerate(...)` pass of
`EvenParityConstraintsHelper.from_puzzle_orbit_definition` for a single
constraint (lines 76-92), threading
`(constraint_orbit_flags, add_to_rest, first_index, rest_constraint_flags,
constraint_flag_count)` over the enumerated orbits. -/
def constraintScan (c : EvenParityConstraint) :
    List (Nat × Orbit) → List Bool → Bool → Option Nat → List Bool → Nat →
      List Bool × Option Nat × List Bool × Nat
  | [], flags, _, first, rest, count => (flags, first, rest, count)
  | (i, orbit) :: rest_orbits, flags, add_to_rest, first, rest, count =>
    let constraint_flag := c.orbit_names.any (fun nm => orbit.name == nm)
    let flags := if constraint_flag then flags.set i true else flags
    let count := if constraint_flag then count + 1 else count
    if add_to_rest then
      constraintScan c rest_orbits flags true first (rest ++ [constraint_flag]) count
    else if constraint_flag then
      constraintScan c rest_orbits flags true (some i) rest count
    else
      constraintScan c rest_orbits flags false first rest count

/-- The outer constraint loop of `from_puzzle_orbit_definition`
(lines 75-102), accumulating `constraint_orbit_flags` and the
`(first_index, rest_constraint_flags)` pairs.  `none` models the
`ValueError` for a constraint whose orbit-name flag count does not match its
name-list length; a constraint matching no orbit at all either has a
non-empty name list (then its count is `0` and the `ValueError` fires) or an
empty one, in which case the source stores a `None` index that the later
sort and search cannot meaningfully use, so it is rejected here too. -/
def fromPuzzleLoop (orbits : List Orbit) :
    List EvenParityConstraint → List Bool → List (Nat × List Bool) →
      Option (List Bool × List (Nat × List Bool))
  | [], flags, pairs => some (flags, pairs)
  | c :: cs, flags, pairs =>
    let scan := constraintScan c orbits.enum flags false none [] 0
    if scan.2.2.2 ≠ c.orbit_names.length then none
    else
      match scan.2.1 with
      | none => none
      | some fi => fromPuzzleLoop orbits cs scan.1 (pairs ++ [(fi, scan.2.2.1)])

/-- `EvenParityConstraintsHelper.from_puzzle_orbit_definition` (lines 68-120):
scan each constraint, sort the `(first_index, rest_flags)` pairs by first
index descending (stable), and split them into the two parallel lists. -/
def EvenParityConstraintsHelper.from_puzzle_orbit_definition
    (pz : PuzzleOrbitDefinition) : Option EvenParityConstraintsHelper :=
  match fromPuzzleLoop pz.orbits pz.even_parity_constraints
      (List.replicate pz.orbits.length false) [] with
  | none => none
  | some (flags, pairs) =>
    let sorted := List.insertionSort (fun a b => b.1 ≤ a.1) pairs
    some ⟨sorted.map Prod.fst, sorted.map Prod.snd, flags⟩

/-- A frame of the explicit DFS stack in
`highest_order_cycles_from_cubie_counts` (line 506).  The source stores
`(i, running_order, partition_obj, next_even_parity_constraint_index)` with
`i` running from `len(tables) - 1` down to `-1`; we store `lv = i + 1` (a
`Nat`), so a frame writes `partition_obj_path[lv]`, fires the parity gates
whose first index equals `lv`, expands table `lv - 1` while `lv ≠ 0`, and
reaches the `i == -1` result handling at `lv = 0`. -/
structure Frame where
  lv : Nat
  running_order : Nat
  obj : Option CubiePartition
  next_constraint : Nat
deriving DecidableEq, Repr

/-- `sum(sign(partition) for j, partition in enumerate(map(attrgetter
("partition"), partition_obj_path[i + 2:])) if rest_constraint_flags[...][j])`
(lines 524-535): the flagged signature sum over the already-assigned higher
orbits.  `zip` truncates like the source's pairing of equal-length data. -/
def restSignSum (flags : List Bool) (tail : List (Option CubiePartition)) : Int :=
  ((tail.zip flags).filter (fun x => x.2)).foldl
    (fun acc x => acc + sign ((x.1.map CubiePartition.partition).getD [])) 0

/-- The parity-gate `while` loop (lines 514-541): as long as the next
pending constraint's first index equals this frame's write position `lv`,
check that the signature of the frame's partition plus the flagged
signature sum of the orbits above is even; a violation abandons the branch
(`none`, the source's `continue_outer`), otherwise the constraint pointer
advances. -/
def gateLoop (h : EvenParityConstraintsHelper) (obj : Option CubiePartition)
    (path : List (Option CubiePartition)) (lv : Nat) (next : Nat) : Option Nat :=
  if hc : next < h.first_constraint_indicies.length ∧
      h.first_constraint_indicies.getD next 0 = lv then
    if (sign ((obj.map CubiePartition.partition).getD []) +
        restSignSum (h.rest_constraint_flags.getD next []) (path.drop (lv + 1))) % 2 ≠ 0 then
      none
    else
      gateLoop h obj path lv (next + 1)
  else
    some next
termination_by h.first_constraint_indicies.length - next
decreasing_by omega

/-- The candidate-expansion `for` loop over one reduced table
(lines 543-557): iterate the table in order, stopping (`break`) once
`running_order * q.order * rest_upper_bounds[i] < highest_order`; each kept
candidate becomes a frame one level down whose running order is
`(running_order * q.order) // gcd(running_order, q.order)` (the lcm). -/
def pushFrames (tbl : List CubiePartition) (running_order rub_i highest next lvm1 : Nat) :
    List Frame :=
  match tbl with
  | [] => []
  | q :: ts =>
    let rest_upper_bound := running_order * q.order
    if rest_upper_bound * rub_i < highest then []
    else
      ⟨lvm1, rest_upper_bound / Nat.gcd running_order q.order, some q, next⟩ ::
        pushFrames ts running_order rub_i highest next lvm1

/-- Termination measure helper: a frame at level `lv` weighs `b ^ lv`. -/
def frameWeight (b : Nat) (f : Frame) : Nat := b ^ f.lv

/-- Termination measure: total weight of a stack. -/
def stackWeight (b : Nat) (s : List Frame) : Nat := (s.map (frameWeight b)).sum

/-- Length of the longest reduced table, bounding how many frames one pop
can push. -/
def maxTableLen (tables : List (List CubiePartition)) : Nat :=
  (tables.map List.length).foldr max 0

/-- The `while stack:` loop of `highest_order_cycles_from_cubie_counts`
(lines 507-569), as a function of the loop state
`(stack, partition_obj_path, highest_order, cycles)`.  The stack's top is
the list head (the source appends and pops at the list's end, so frames
pushed in table order are reversed onto the front).  A frame first writes
its partition into the shared path (when not `None`), then runs the parity
gates, then either expands the next table down or, at `lv = 0`, merges its
completed running order into `(highest_order, cycles)` exactly as in lines
558-569.  Returns the final `(highest_order, cycles)` of one `free_share`
iteration. -/
def searchLoop (tables : List (List CubiePartition)) (rub : List Nat)
    (h : EvenParityConstraintsHelper) (share : List Bool) :
    List Frame → List (Option CubiePartition) → Nat → List Cycle → Nat × List Cycle
  | [], _, highest, cycles => (highest, cycles)
  | f :: rest, path, highest, cycles =>
    let path1 := if f.obj.isSome then path.set f.lv f.obj else path
    match gateLoop h f.obj path1 f.lv f.next_constraint with
    | none => searchLoop tables rub h share rest path1 highest cycles
    | some next =>
      if f.lv ≠ 0 then
        searchLoop tables rub h share
          ((pushFrames (tables.getD (f.lv - 1) []) f.running_order
              (rub.getD (f.lv - 1) 1) highest next (f.lv - 1)).reverse ++ rest)
          path1 highest cycles
      else
        let cycles1 := if f.running_order > highest then [] else cycles
        if f.running_order < highest then
          searchLoop tables rub h share rest path1 highest cycles1
        else
          searchLoop tables rub h share rest path1 f.running_order
            (cycles1 ++ [⟨f.running_order, share, path1⟩])
termination_by stack => stackWeight (maxTableLen tables + 1) stack
decreasing_by
  · simp only [stackWeight, List.map_cons, List.sum_cons]
    have : 0 < frameWeight (maxTableLen tables + 1) f := Nat.pos_pow_of_pos _ (by omega)
    omega
  · have hpw : ∀ (tbl : List CubiePartition) (ro ru hi nx lvm1 : Nat),
        stackWeight (maxTableLen tables + 1) (pushFrames tbl ro ru hi nx lvm1) ≤
          tbl.length * (maxTableLen tables + 1) ^ lvm1 := by
      intro tbl
      induction tbl with
      | nil => intro ro ru hi nx lvm1; simp [pushFrames, stackWeight]
      | cons q ts ih =>
        intro ro ru hi nx lvm1
        rw [pushFrames]
        split
        · simp [stackWeight]
        · simp only [stackWeight, List.map_cons, List.sum_cons, frameWeight,
            List.length_cons]
          have := ih ro ru hi nx lvm1
          simp only [stackWeight] at this
          calc (maxTableLen tables + 1) ^ lvm1 +
                ((pushFrames ts ro ru hi nx lvm1).map
                  (frameWeight (maxTableLen tables + 1))).sum
              ≤ (maxTableLen tables + 1) ^ lvm1 +
                ts.length * (maxTableLen tables + 1) ^ lvm1 := by omega
            _ = (ts.length + 1) * (maxTableLen tables + 1) ^ lvm1 := by ring
    have hgd : ∀ (ts : List (List CubiePartition)) (i : Nat),
        (ts.getD i []).length ≤ maxTableLen ts := by
      intro ts
      induction ts with
      | nil => intro i; simp [maxTableLen, List.getD]
      | cons t ts ih =>
        intro i
        cases i with
        | zero => simp [maxTableLen, List.getD]
        | succ j =>
          simp only [maxTableLen, List.map_cons, List.foldr_cons, List.getD_cons_succ]
          exact le_trans (ih j) (le_max_right _ _)
    have h1 := hpw (tables.getD (f.lv - 1) []) f.running_order (rub.getD (f.lv - 1) 1)
      highest next (f.lv - 1)
    have h2 := hgd tables (f.lv - 1)
    have h3 : (tables.getD (f.lv - 1) []).length * (maxTableLen tables + 1) ^ (f.lv - 1)
        < (maxTableLen tables + 1) ^ f.lv := by
      have hpos : 0 < (maxTableLen tables + 1) ^ (f.lv - 1) := Nat.pos_pow_of_pos _ (by omega)
      calc (tables.getD (f.lv - 1) []).length * (maxTableLen tables + 1) ^ (f.lv - 1)
          < (maxTableLen tables + 1) * (maxTableLen tables + 1) ^ (f.lv - 1) := by
            exact Nat.mul_lt_mul_of_lt_of_le (by omega) (le_refl _) hpos
        _ = (maxTableLen tables + 1) ^ (f.lv - 1 + 1) := by rw [pow_succ]; ring
        _ = (maxTableLen tables + 1) ^ f.lv := by
            congr 1
            omega
    simp only [stackWeight, List.map_cons, List.sum_cons, List.map_append,
      List.sum_append, List.map_reverse, List.sum_reverse]
    simp only [stackWeight] at h1
    have : (frameWeight (maxTableLen tables + 1) f) = (maxTableLen tables + 1) ^ f.lv := rfl
    omega
  · simp only [stackWeight, List.map_cons, List.sum_cons]
    have : 0 < frameWeight (maxTableLen tables + 1) f := Nat.pos_pow_of_pos _ (by omega)
    omega
  · simp only [stackWeight, List.map_cons, List.sum_cons]
    have : 0 < frameWeight (maxTableLen tables + 1) f := Nat.pos_pow_of_pos _ (by omega)
    omega

/-- The `share_states` classification loop (lines 454-468): per orbit
index, `CANNOT_SHARE_ORIENTATION` for a zero budget or a `CannotOrient`
orbit, `MUST_SHARE_ORIENTATION` for a budget of exactly 1 on an orientable
orbit, `FREE` otherwise. -/
def shareStates (pz : PuzzleOrbitDefinition) (ccc : List Nat) : List ShareState :=
  ccc.enum.map (fun ic =>
    if ic.2 = 0 ∨ (pz.orbits.getD ic.1 defaultOrbit).orientation_status =
        OrientationStatus.CannotOrient then
      ShareState.CANNOT_SHARE_ORIENTATION
    else if ic.2 = 1 then ShareState.MUST_SHARE_ORIENTATION
    else ShareState.FREE)

/-- `itertools.product((False, True), repeat=n)` (lines 469-472): all
boolean vectors of length `n`, first coordinate varying slowest, `False`
before `True`. -/
def freeShareProducts : Nat → List (List Bool)
  | 0 => [[]]
  | n + 1 =>
    (freeShareProducts n).map (false :: ·) ++ (freeShareProducts n).map (true :: ·)

/-- The `share` vector assembly (lines 473-483): walk the share states,
consuming the next `free_share` entry at each `FREE` slot. -/
def buildShare : List ShareState → List Bool → List Bool
  | [], _ => []
  | st :: sts, free =>
    match st with
    | ShareState.FREE => free.headD false :: buildShare sts free.tail
    | ShareState.CANNOT_SHARE_ORIENTATION => false :: buildShare sts free
    | ShareState.MUST_SHARE_ORIENTATION => true :: buildShare sts free

/-- Stand-in for `table[0]` on an impossible empty table (the source's
`operator.itemgetter(0)` would raise; claim C10 shows tables produced under
the share policy are never empty). -/
def defaultCubiePartition : CubiePartition := ⟨"", [], 1, none, none⟩

/-- The `rest_upper_bounds` prefix products (lines 495-504): entry `i` is
the product of the top (highest-order) entries of tables `0..i-1`. -/
def restUpperBounds (tables : List (List CubiePartition)) : List Nat :=
  (tables.foldl
    (fun st t => (st.1 ++ [st.2], st.2 * (t.headD defaultCubiePartition).order))
    ([], 1)).1

/-- `highest_order_cycles_from_cubie_counts(cycle_cubie_counts, puzzle,
helper)` (lines 448-571).  Note the state threading of the source:
`highest_order` persists ACROSS `free_share` iterations, while `cycles` is
re-created per iteration and extended onto `shared_cycles` at each
iteration's end. -/
def highest_order_cycles_from_cubie_counts (ccc : List Nat)
    (pz : PuzzleOrbitDefinition) (h : EvenParityConstraintsHelper) : List Cycle :=
  let states := shareStates pz ccc
  let free_count := states.countP (fun st => decide (st = ShareState.FREE))
  ((freeShareProducts free_count).foldl
    (fun st free =>
      let share := buildShare states free
      let tables := (List.range ccc.length).map
        (fun i => reduced_integer_partitions (ccc.getD i 0) i (share.getD i false) pz h)
      let rub := restUpperBounds tables
      let res := searchLoop tables rub h share
        [⟨tables.length, 1, none, 0⟩]
        (List.replicate tables.length none) st.1 []
      (res.1, st.2 ++ res.2))
    (1, [])).2

/-- One `free_share` iteration of `highest_order_cycles_from_cubie_counts`
(lines 469-557): build the share vector, the reduced tables and the
rest-upper-bound prefix products, then run the table-expansion search from
the given persisted `highest_order`. -/
def searchIteration (ccc : List Nat) (pz : PuzzleOrbitDefinition)
    (h : EvenParityConstraintsHelper) (highest : Nat) (free : List Bool) :
    Nat × List Cycle :=
  let share := buildShare (shareStates pz ccc) free
  let tables := (List.range ccc.length).map
    (fun i => reduced_integer_partitions (ccc.getD i 0) i (share.getD i false) pz h)
  let rub := restUpperBounds tables
  searchLoop tables rub h share [⟨tables.length, 1, none, 0⟩]
    (List.replicate tables.length none) highest []

/-- The full `(highest_order, shared_cycles)` state of
`highest_order_cycles_from_cubie_counts` after the `free_share` loop
(lines 469-571); the function returns its second component. -/
def searchFold (ccc : List Nat) (pz : PuzzleOrbitDefinition)
    (h : EvenParityConstraintsHelper) : Nat × List Cycle :=
  (freeShareProducts
      ((shareStates pz ccc).countP (fun st => decide (st = ShareState.FREE)))).foldl
    (fun st free =>
      let res := searchIteration ccc pz h st.1 free
      (res.1, st.2 ++ res.2)) (1, [])

/-- The full signature check of the pending constraint `k` over a path:
the signature of the entry at the constraint's first index plus the flagged
signature sum of the entries above it (missing or `None` entries contribute
`sign([]) = 0`, exactly as in `restSignSum`). -/
def gateSum (h : EvenParityConstraintsHelper) (k : Nat)
    (path : List (Option CubiePartition)) : Int :=
  sign (((path.getD (h.first_constraint_indicies.getD k 0) none).map
      CubiePartition.partition).getD []) +
  restSignSum (h.rest_constraint_flags.getD k [])
    (path.drop (h.first_constraint_indicies.getD k 0 + 1))

/-- Claim-side formalization for C1: the sum, over the orbits named by one
`EvenParityConstraint`, of the signatures of a path's per-orbit partitions. -/
def constraintSignSum (pz : PuzzleOrbitDefinition) (c : EvenParityConstraint)
    (path : List (Option CubiePartition)) : Int :=
  ((((pz.orbits.zip path).filter
      (fun op => c.orbit_names.any (fun nm => op.1.name == nm))).map
    (fun op => sign ((op.2.map CubiePartition.partition).getD []))).sum)

/-- Search invariant, per stack frame: the constraint pointer is in range;
the frame's write position is below the path length exactly when it carries
a partition (only the initial frame does not); all pending constraints
have first index at most the write position; all consumed constraints have
first index strictly above it and an even signature check over the current
path. -/
def FrameOK (h : EvenParityConstraintsHelper) (L : Nat) (f : Frame)
    (path : List (Option CubiePartition)) : Prop :=
  f.next_constraint ≤ h.first_constraint_indicies.length ∧
  (f.obj.isSome = true → f.lv < L) ∧
  (f.obj = none → f.lv = L) ∧
  (∀ k, f.next_constraint ≤ k → k < h.first_constraint_indicies.length →
    h.first_constraint_indicies.getD k 0 ≤ f.lv) ∧
  (∀ k, k < f.next_constraint →
    f.lv < h.first_constraint_indicies.getD k 0 ∧ gateSum h k path % 2 = 0)

/-- Search invariant for the whole stack: the path has the fixed table
count as length, frame levels are non-decreasing from the top down, and
every frame is consistent with the current path. -/
def SearchInv (h : EvenParityConstraintsHelper) (L : Nat) (stack : List Frame)
    (path : List (Option CubiePartition)) : Prop :=
  path.length = L ∧
  stack.Pairwise (fun a b => a.lv ≤ b.lv) ∧
  ∀ f ∈ stack, FrameOK h L f path

/-- A collected cycle passes every constraint's signature check. -/
def CycleOK (h : EvenParityConstraintsHelper) (cy : Cycle) : Prop :=
  ∀ k, k < h.first_constraint_indicies.length → gateSum h k cy.partition_objs % 2 = 0

/-- `recursive_shared_cycle_combinations` (lines 424-442): the cartesian
product of the per-column highest-order cycle lists, first column varying
slowest. -/
def recursive_shared_cycle_combinations (accc : List (List Nat))
    (pz : PuzzleOrbitDefinition) (h : EvenParityConstraintsHelper) : List (List Cycle) :=
  match accc with
  | [] => [[]]
  | c :: cs =>
    (highest_order_cycles_from_cubie_counts c pz h).flatMap
      (fun shared_cycle =>
        (recursive_shared_cycle_combinations cs pz h).map (shared_cycle :: ·))

/-- `cycle.partition_objs[i].partition` (total version; out-of-range or
`None` entries, which would raise in the source, give `[]`). -/
def cyclePartitionAt (cy : Cycle) (i : Nat) : List Nat :=
  ((cy.partition_objs.getD i none).map CubiePartition.partition).getD []

/-- Elementwise equality of the zipped per-orbit partitions of two cycles:
the `all(this_cubie_partition == other_cubie_partition for ...)` pattern of
lines 195-207 and 320-334. -/
def partitionsEqual (tc oc : Cycle) : Bool :=
  ((tc.partition_objs.map (fun o => (o.map CubiePartition.partition).getD [])).zip
      (oc.partition_objs.map (fun o => (o.map CubiePartition.partition).getD []))).all
    (fun x => x.1 == x.2)

/-- The `zip` loop of `cycle_combination_dominates` (lines 187-209),
threading `(different_orders, same_cycle)`: an `other` cycle of strictly
greater order returns `False` immediately; once `different_orders` is set
the per-cycle updates are skipped (`continue`); otherwise both flags are
updated in the same iteration. -/
def dominatesLoop : List (Cycle × Cycle) → Bool → Bool → Bool
  | [], d, s => d || s
  | (tc, oc) :: rest, d, s =>
    if oc.order > tc.order then false
    else if d then dominatesLoop rest d s
    else dominatesLoop rest (d || decide (tc.order > oc.order)) (s && partitionsEqual tc oc)

/-- `cycle_combination_dominates(this, other)` (lines 184-209). -/
def cycle_combination_dominates (this other : CycleCombination) : Bool :=
  dominatesLoop (this.cycle_combination.zip other.cycle_combination)
    false
    (decide (this.share_orders = other.share_orders))

/-- The descending sort key of `pareto_efficient_cycle_combinations`
(lines 683-689): the Python tuple `(order_product, *cycle orders)`; with all
components naturals this is lexicographic comparison of the flattened
list. -/
def paretoKey (c : CycleCombination) : List Nat :=
  c.order_product :: c.cycle_combination.map Cycle.order

/-- `pareto_efficient_cycle_combinations(cycle_combination_objs)`
(lines 679-697): sort by key descending (stable), then keep each candidate
iff no already-kept candidate dominates it. -/
def pareto_efficient_cycle_combinations (objs : List CycleCombination) :
    List CycleCombination :=
  (List.insertionSort (fun a b => natListLe (paretoKey b) (paretoKey a) = true) objs).foldl
    (fun pareto_points maybe_redundant =>
      if pareto_points.all (fun p => !cycle_combination_dominates p maybe_redundant) then
        pareto_points ++ [maybe_redundant]
      else pareto_points)
    []

/-- `itertools.product(*lists)`: all selections of one element per factor,
first factor varying slowest. -/
def listProduct {α : Type} : List (List α) → List (List α)
  | [] => [[]]
  | l :: ls => l.flatMap (fun x => (listProduct ls).map (x :: ·))

/-- All ways to insert `x` into a list. -/
def insertEverywhere (x : Nat) : List Nat → List (List Nat)
  | [] => [[x]]
  | y :: ys => (x :: y :: ys) :: (insertEverywhere x ys).map (y :: ·)

/-- All permutations of a list (with multiplicity), structurally. -/
def permsList : List Nat → List (List Nat)
  | [] => [[]]
  | x :: xs => (permsList xs).flatMap (insertEverywhere x)

/-- `unique_permutations(iterable)` (lines 156-161): `itertools.permutations`
on the sorted input emits all index-permutations in non-decreasing
lexicographic order, and the `p > previous` filter keeps exactly the
distinct ones, once each, ascending — i.e. the duplicate-free list of all
permutations of the input, sorted lexicographically ascending.  Only the
set of permutations matters, so any generator of all permutations followed
by dedup-and-sort realizes it. -/
def unique_permutations (l : List Nat) : List (List Nat) :=
  List.insertionSort (fun a b => natListLe a b = true) (permsList l).dedup

/-- The degenerate-column test (lines 249-258): every entry of the column is
`0`, or is `1` in a `CannotOrient` orbit. -/
def degenerateColumn (orbits : List Orbit) (cubie_counts : List Nat) : Bool :=
  (orbits.zip cubie_counts).all (fun oc =>
    oc.2 == 0 ||
      (decide (oc.1.orientation_status = OrientationStatus.CannotOrient) && oc.2 == 1))

/-- Lines 240-267: iterate `itertools.product(*map(unique_permutations,
rows))`; for each choice form the per-cycle columns (`zip(*rows)`, here
explicit since all padded rows have length `num_cycles`), skip the choice if
any column is degenerate, sort the columns descending, and keep each sorted
column multiset once (`seen_cycle_cubie_counts`), in first-seen order. -/
def columnAssignments (pz : PuzzleOrbitDefinition) (numCycles : Nat)
    (paddedRows : List (List Nat)) : List (List (List Nat)) :=
  (listProduct (paddedRows.map unique_permutations)).foldl
    (fun seen perm =>
      let cols := (List.range numCycles).map (fun j => perm.map (fun r => r.getD j 0))
      if cols.any (degenerateColumn pz.orbits) then seen
      else
        let sortedCols := List.insertionSort (fun a b => natListLe b a = true) cols
        if sortedCols ∈ seen then seen else seen ++ [sortedCols])
    []

/-- Per-orbit `orbits_can_share` of the validation pass (lines 273-281):
some cycle has `share[i] is False` and a `1` in its partition there. -/
def orbitsCanShare (numOrbits : Nat) (cycles : List Cycle) : List Bool :=
  (List.range numOrbits).map (fun i =>
    cycles.any (fun cy => !(cy.share.getD i true) && (cyclePartitionAt cy i).contains 1))

/-- Per-orbit `share_orbit_counts` (lines 274-281): how many cycles have the
share flag set there (Python sums the booleans). -/
def shareOrbitCounts (numOrbits : Nat) (cycles : List Cycle) : List Nat :=
  (List.range numOrbits).map (fun i => cycles.countP (fun cy => cy.share.getD i false))

/-- For the variant loop: a stand-in for an out-of-range cycle access. -/
def defaultCycle : Cycle := ⟨1, [], []⟩

/-- The cycle sort key `(cycle.order, *map(attrgetter("partition"),
cycle.partition_objs))` (lines 291-301), encoded as a list of lists compared
lexicographically (equivalent to the Python tuple comparison: a `Nat` head
followed by the per-orbit partitions, shapes uniform within one
combination). -/
def cycleKey (cy : Cycle) : List (List Nat) :=
  [cy.order] :: cy.partition_objs.map (fun o => (o.map CubiePartition.partition).getD [])

/-- `sorted(shared_cycle_combination, key=..., reverse=True)`
(lines 291-301): stable descending sort by `cycleKey`. -/
def sortCyclesDescending (cycles : List Cycle) : List Cycle :=
  List.insertionSort (fun a b => lexLe natListLt (cycleKey b) (cycleKey a) = true) cycles

/-- The simultaneous position-0/position-`i` swap of lines 336-345. -/
def swapHead (dcc : List Cycle) (i : Nat) : List Cycle :=
  (dcc.set 0 (dcc.getD i defaultCycle)).set i (dcc.getD 0 defaultCycle)

/-- The same-top-order variant enumeration (lines 302-345), from index `i`
up: index 0 emits the sorted combination itself; a later index stops the
loop (`break`) if its order differs from the top order, is skipped
(`continue`) when its partitions equal its predecessor's, and otherwise
emits the combination with that cycle swapped into position 0. -/
def emitVariantsFrom (dcc : List Cycle) (i : Nat) : List (List Cycle) :=
  if hi : i < dcc.length then
    if i = 0 then dcc :: emitVariantsFrom dcc (i + 1)
    else if (dcc.getD i defaultCycle).order ≠ (dcc.getD 0 defaultCycle).order then []
    else if partitionsEqual (dcc.getD (i - 1) defaultCycle) (dcc.getD i defaultCycle) then
      emitVariantsFrom dcc (i + 1)
    else
      swapHead dcc i :: emitVariantsFrom dcc (i + 1)
  else []
termination_by dcc.length - i
decreasing_by all_goals omega

/-- The donor-candidate pass of the variant body (lines 347-365): iterate
the variant's cycles in order; a cycle `j` is a candidate donor for orbit
`k` if an earlier cycle already put a `1` there and cycle `j` has a `1`
there too; afterwards mark orbit `k` whenever cycle `j` has a `1` there. -/
def shareCandidates (numOrbits : Nat) (variant : List Cycle) : List (List Nat) :=
  (variant.enum.foldl
    (fun st jc =>
      let can' := (List.range numOrbits).map
        (fun k => st.1.getD k false || (cyclePartitionAt jc.2 k).contains 1)
      let cands' := (List.range numOrbits).map (fun k =>
        if st.1.getD k false && (cyclePartitionAt jc.2 k).contains 1 then
          (st.2.getD k []) ++ [jc.1]
        else st.2.getD k [])
      (can', cands'))
    (List.replicate numOrbits false, List.replicate numOrbits ([] : List Nat))).2

/-- `itertools.combinations(l, r)`: all `r`-element sublists of `l`
preserving order, emitted lexicographically by position. -/
def combinationsList {α : Type} : Nat → List α → List (List α)
  | 0, _ => [[]]
  | _ + 1, [] => []
  | r + 1, x :: xs => (combinationsList r xs).map (x :: ·) ++ combinationsList (r + 1) xs

/-- The `share_orders` comprehension (lines 376-402): for every way of
picking, per orbit, `share_orbit_counts[k]` donors from that orbit's
candidate list, record for each cycle `j` the per-orbit membership
booleans. -/
def shareOrdersFor (numOrbits : Nat) (counts : List Nat) (variant : List Cycle) :
    List (List (List Bool)) :=
  let cands := shareCandidates numOrbits variant
  (listProduct ((cands.zip counts).map (fun x => combinationsList x.2 x.1))).map
    (fun all_share_orbit_indicies =>
      (List.range variant.length).map (fun j =>
        all_share_orbit_indicies.map (fun idxs => idxs.contains j)))

/-- Lines 273-415: process one `shared_cycle_combination`: validate global
share consistency (every orbit with share requests has a donor), sort the
cycles descending, and emit one `CycleCombination` per variant of the
same-top-order permutation loop, with its `share_orders` and order
product. -/
def combosFromSharedCombination (pz : PuzzleOrbitDefinition) (u : List Nat)
    (scc : List Cycle) : List CycleCombination :=
  let numOrbits := pz.orbits.length
  let canShare := orbitsCanShare numOrbits scc
  let counts := shareOrbitCounts numOrbits scc
  if (counts.zip canShare).any (fun x => decide (x.1 ≠ 0) && !x.2) then []
  else
    let dcc := sortCyclesDescending scc
    (emitVariantsFrom dcc 0).map (fun variant =>
      ⟨u, variant.foldl (fun acc cy => acc * cy.order) 1,
        shareOrdersFor numOrbits counts variant, variant⟩)

/-- `optimal_cycle_combinations(puzzle_orbit_definition, num_cycles)`
(lines 212-420): the full enumerator followed by the Pareto filter.  `none`
models the `ValueError` propagated from the parity-helper construction; the
`functools.cache` memoization and `cache_clear` calls are pure-function
memoization and need no modelling. -/
def optimal_cycle_combinations (pz : PuzzleOrbitDefinition) (num_cycles : Nat) :
    Option (List CycleCombination) :=
  (EvenParityConstraintsHelper.from_puzzle_orbit_definition pz).map (fun h =>
    let candidates :=
      (listProduct (pz.orbits.map (fun orbit => List.range' 1 orbit.cubie_count))).flatMap
        (fun used_cubie_counts =>
          (listProduct (used_cubie_counts.map integer_partitions)).flatMap
            (fun rows =>
              if rows.any (fun r => r.length > num_cycles) then []
              else
                let padded := rows.map (fun r => r ++ List.replicate (num_cycles - r.length) 0)
                (columnAssignments pz num_cycles padded).flatMap
                  (fun accc =>
                    (recursive_shared_cycle_combinations accc pz h).flatMap
                      (fun scc => combosFromSharedCombination pz used_cubie_counts scc))))
    pareto_efficient_cycle_combinations candidates)

/-- Spec-side definition for the amended claim C8 (the source is
`from_puzzle_orbit_definition`; this follows the amended spec words): the
summary of one parity constraint is the SMALLEST orbit index whose orbit
participates, paired with one participation flag for every orbit at a
strictly greater index, in index order. -/
def specConstraintSummary (pz : PuzzleOrbitDefinition) (c : EvenParityConstraint) :
    Nat × List Bool :=
  (pz.orbits.findIdx (fun orbit => c.orbit_names.any (fun nm => orbit.name == nm)),
   (pz.orbits.drop
      (pz.orbits.findIdx (fun orbit => c.orbit_names.any (fun nm => orbit.name == nm)) + 1)).map
     (fun orbit => c.orbit_names.any (fun nm => orbit.name == nm)))

/-! Concrete test fixtures used by witnesses and counterexamples. -/

/-- Fixture: one orientable orbit (`CanOrient 2 ZERO`) with two cubies, no
parity constraints. -/
def onePuzzle : PuzzleOrbitDefinition :=
  ⟨[⟨"x", 2, OrientationStatus.CanOrient 2 OrientationSumConstraint.ZERO⟩], []⟩

/-- The parity helper of `onePuzzle` (no constraints, one orbit). -/
def onePuzzleHelper : EvenParityConstraintsHelper := ⟨[], [], [false]⟩

/-- Fixture: two rigid (`CannotOrient`) orbits of two cubies each, no parity
constraints. -/
def twoPuzzle : PuzzleOrbitDefinition :=
  ⟨[⟨"a", 2, OrientationStatus.CannotOrient⟩,
    ⟨"b", 2, OrientationStatus.CannotOrient⟩], []⟩

/-- Fixture: two rigid orbits with one parity constraint naming both. -/
def twoParityPuzzle : PuzzleOrbitDefinition :=
  ⟨[⟨"a", 2, OrientationStatus.CannotOrient⟩,
    ⟨"b", 2, OrientationStatus.CannotOrient⟩], [⟨["a", "b"]⟩]⟩

/-- Fixture for the Pareto filter: a two-cycle combination of orders `2, 3`
(order product 6), no shares, no partition objects. -/
def cexA : CycleCombination := ⟨[], 6, [], [⟨2, [], []⟩, ⟨3, [], []⟩]⟩

/-- Fixture: a one-cycle combination of order `3`. -/
def cexB : CycleCombination := ⟨[], 3, [], [⟨3, [], []⟩]⟩

/-- Fixture: a two-cycle combination of orders `3, 2` (order product 6). -/
def cexC : CycleCombination := ⟨[], 6, [], [⟨3, [], []⟩, ⟨2, [], []⟩]⟩

/-- Fixture: a two-cycle combination of orders `2, 2` (order product 4). -/
def cexD : CycleCombination := ⟨[], 4, [], [⟨2, [], []⟩, ⟨2, [], []⟩]⟩

/-! ## Helper lemmas -/

theorem mem_setInsert (a x : List Nat) (s : List (List Nat)) :
    a ∈ setInsert x s ↔ a ∈ s ∨ a = x := by
  unfold setInsert
  split
  · rename_i hx
    constructor
    · exact Or.inl
    · rintro (ha | rfl)
      · exact ha
      · exact hx
  · simp

theorem mem_foldl_setInsert {β : Type} (f : β → List Nat) (ys : List β)
    (init : List (List Nat)) (a : List Nat) :
    a ∈ ys.foldl (fun ans y => setInsert (f y) ans) init ↔
      a ∈ init ∨ ∃ y ∈ ys, f y = a := by
  induction ys generalizing init with
  | nil => simp
  | cons y ys ih =>
    rw [List.foldl_cons, ih, mem_setInsert]
    constructor
    · rintro ((ha | ha) | ⟨y', hy', rfl⟩)
      · exact Or.inl ha
      · exact Or.inr ⟨y, by simp, ha.symm⟩
      · exact Or.inr ⟨y', by simp [hy'], rfl⟩
    · rintro (ha | ⟨y', hy', rfl⟩)
      · exact Or.inl (Or.inl ha)
      · rcases List.mem_cons.mp hy' with rfl | hy'
        · exact Or.inl (Or.inr rfl)
        · exact Or.inr ⟨y', hy', rfl⟩

theorem mem_foldl_foldl_setInsert {β γ : Type} (h : β → List γ) (f : β → γ → List Nat)
    (xs : List β) (init : List (List Nat)) (a : List Nat) :
    a ∈ xs.foldl
        (fun ans x => (h x).foldl (fun ans2 y => setInsert (f x y) ans2) ans) init ↔
      a ∈ init ∨ ∃ x ∈ xs, ∃ y ∈ h x, f x y = a := by
  induction xs generalizing init with
  | nil => simp
  | cons x xs ih =>
    rw [List.foldl_cons, ih, mem_foldl_setInsert]
    constructor
    · rintro ((ha | ⟨y, hy, rfl⟩) | ⟨x', hx', y, hy, rfl⟩)
      · exact Or.inl ha
      · exact Or.inr ⟨x, by simp, y, hy, rfl⟩
      · exact Or.inr ⟨x', by simp [hx'], y, hy, rfl⟩
    · rintro (ha | ⟨x', hx', y, hy, rfl⟩)
      · exact Or.inl (Or.inl ha)
      · rcases List.mem_cons.mp hx' with rfl | hx'
        · exact Or.inl (Or.inr ⟨y, hy, rfl⟩)
        · exact Or.inr ⟨x', hx', y, hy, rfl⟩

theorem integer_partitions_succ_mem (n : Nat) (a : List Nat) :
    a ∈ integer_partitions (n + 1) ↔
      a = [n + 1] ∨ ∃ x, (1 ≤ x ∧ x < n + 1) ∧
        ∃ y ∈ integer_partitions (n + 1 - x), List.insertionSort (· ≤ ·) (x :: y) = a := by
  rw [integer_partitions]
  rw [mem_foldl_foldl_setInsert (fun x => integer_partitions (n + 1 - x.1))
    (fun x y => List.insertionSort (· ≤ ·) (x.1 :: y)) (List.range' 1 n).attach
    [[n + 1]] a]
  constructor
  · rintro (ha | ⟨x, _, y, hy, rfl⟩)
    · exact Or.inl (by simpa using ha)
    · have hx := List.mem_range'_1.mp x.2
      exact Or.inr ⟨x.1, by omega, y, hy, rfl⟩
  · rintro (rfl | ⟨x, hx, y, hy, hsort⟩)
    · exact Or.inl (by simp)
    · refine Or.inr ⟨⟨x, List.mem_range'_1.mpr (by omega)⟩, List.mem_attach _ _, y, hy, hsort⟩

theorem integer_partitions_mem (n : Nat) : ∀ (l : List Nat),
    l ∈ integer_partitions n ↔
      List.Sorted (· ≤ ·) l ∧ (∀ x ∈ l, 0 < x) ∧ l.sum = n := by
  induction n using Nat.strong_induction_on with
  | _ n ih =>
    intro l
    match n with
    | 0 =>
      rw [integer_partitions]
      simp only [List.mem_singleton]
      constructor
      · rintro rfl
        exact ⟨List.sorted_nil, by simp, rfl⟩
      · rintro ⟨_, hpos, hsum⟩
        cases l with
        | nil => rfl
        | cons x xs =>
          exfalso
          have hx := hpos x (by simp)
          have : 0 < (x :: xs).sum := by
            simp only [List.sum_cons]
            omega
          omega
    | n + 1 =>
      rw [integer_partitions_succ_mem]
      constructor
      · rintro (rfl | ⟨x, hx, y, hy, rfl⟩)
        · exact ⟨List.sorted_singleton _, by simp, by simp⟩
        · have hiy := (ih (n + 1 - x) (by omega) y).mp hy
          have hperm : (List.insertionSort (· ≤ ·) (x :: y)).Perm (x :: y) :=
            List.perm_insertionSort _ _
          refine ⟨List.sorted_insertionSort _ _, ?_, ?_⟩
          · intro z hz
            rcases List.mem_cons.mp (hperm.mem_iff.mp hz) with rfl | hz
            · omega
            · exact hiy.2.1 z hz
          · rw [hperm.sum_eq]
            simp only [List.sum_cons]
            omega
      · rintro ⟨hsort, hpos, hsum⟩
        cases l with
        | nil => simp at hsum
        | cons x ys =>
          cases ys with
          | nil =>
            left
            simp only [List.sum_cons, List.sum_nil] at hsum
            exact congrArg (fun k => [k]) (by omega)
          | cons z zs =>
            right
            have hx : 0 < x := hpos x (by simp)
            have hz : 0 < z := hpos z (by simp)
            have hsums : (z :: zs).sum = n + 1 - x := by
              simp only [List.sum_cons] at hsum ⊢
              have : 0 < (z :: zs).sum := by
                simp only [List.sum_cons]
                omega
              omega
            have hzsum : 0 < (z :: zs).sum := by
              simp only [List.sum_cons]
              omega
            have hxlt : x < n + 1 := by
              simp only [List.sum_cons] at hsum
              omega
            refine ⟨x, ⟨hx, hxlt⟩, z :: zs, ?_, ?_⟩
            · exact (ih (n + 1 - x) (by omega) (z :: zs)).mpr
                ⟨hsort.of_cons, fun w hw => hpos w (List.mem_cons_of_mem _ hw), hsums⟩
            · exact hsort.insertionSort_eq

/-! ## Claim theorems -/

/-- C4 (confirmed): `integer_partitions(n)` returns exactly the set of all
non-decreasing sequences of positive integers summing to `n` (membership in
the returned set is equivalent to being sorted, positive and of sum `n`),
and in particular `integer_partitions(0)` is the singleton of the empty
partition. -/
theorem C4_integer_partitions_correct (n : Nat) (l : List Nat) :
    (l ∈ integer_partitions n ↔
      List.Sorted (· ≤ ·) l ∧ (∀ x ∈ l, 0 < x) ∧ l.sum = n) ∧
    integer_partitions 0 = [[]] :=
  ⟨integer_partitions_mem n l, by rw [integer_partitions]⟩

/-- C7 (corrected) counterexample: on the partition `(3,)` the source's
`sign` returns `2 = sum - len` without reducing mod 2; the returned value
differs from `(sum - len) mod 2` and lies outside `{0, 1}`, so the claim
that `sign` returns `(sum - len) mod 2 ∈ {0, 1}` is false. -/
theorem C7_sign_counterexample :
    sign [3] = 2 ∧ sign [3] ≠ ((3 : Int) - 1) % 2 ∧ ¬(sign [3] = 0 ∨ sign [3] = 1) := by
  decide

theorem length_le_sum_of_pos (p : List Nat) (hp : ∀ x ∈ p, 0 < x) :
    p.length ≤ p.sum := by
  induction p with
  | nil => simp
  | cons x xs ih =>
    have hx := hp x (by simp)
    have := ih (fun y hy => hp y (by simp [hy]))
    simp only [List.length_cons, List.sum_cons]
    omega

theorem sign_mod_two_count (p : List Nat) :
    sign p % 2 = (p.countP (fun x => decide (x % 2 = 0)) : Int) % 2 := by
  induction p with
  | nil => rfl
  | cons x xs ih =>
    simp only [sign, List.sum_cons, List.length_cons, List.countP_cons] at *
    by_cases hx : x % 2 = 0
    · rw [if_pos (by simp [hx])]
      push_cast at *
      omega
    · rw [if_neg (by simp [hx])]
      push_cast at *
      omega

/-- C7 (corrected, amended): `sign(partition)` returns the plain difference
`sum(partition) - len(partition)`, not reduced mod 2; for a partition of
positive parts the value is non-negative, and its residue mod 2 — the
quantity every caller uses — is in `{0, 1}` and equals the parity of the
number of even parts, i.e. the parity of the permutation with these cycle
lengths (0 even, 1 odd). -/
theorem C7_sign_amended (p : List Nat) (hp : ∀ x ∈ p, 0 < x) :
    sign p = (p.sum : Int) - p.length ∧ 0 ≤ sign p ∧
      (sign p % 2 = 0 ∨ sign p % 2 = 1) ∧
      sign p % 2 = (p.countP (fun x => decide (x % 2 = 0)) : Int) % 2 := by
  refine ⟨rfl, ?_, ?_, sign_mod_two_count p⟩
  · have := length_le_sum_of_pos p hp
    simp only [sign]
    omega
  · omega

theorem C7_sign_amended_witness :
    (∀ x ∈ [2, 3], 0 < x) ∧
      (sign [2, 3] = (([2, 3] : List Nat).sum : Int) - ([2, 3] : List Nat).length ∧
        0 ≤ sign [2, 3] ∧
        (sign [2, 3] % 2 = 0 ∨ sign [2, 3] % 2 = 1) ∧
        sign [2, 3] % 2 =
          (([2, 3] : List Nat).countP (fun x => decide (x % 2 = 0)) : Int) % 2) :=
  ⟨by decide, C7_sign_amended [2, 3] (by decide)⟩

/-! Lemmas for C5: structure of the `always_orient` and `critical_orient`
lists computed by `alwaysCritical`. -/

theorem alwaysCriticalStep_always (k : Nat)
    (st : Int × Option (List Nat) × Option (List Nat)) (jx : Nat × Nat) :
    (alwaysCriticalStep k st jx).2.2 =
      if jx.2 = 1 then some ((st.2.2.getD []) ++ [jx.1]) else st.2.2 := rfl

theorem alwaysCriticalStep_critical (k : Nat)
    (st : Int × Option (List Nat) × Option (List Nat)) (jx : Nat × Nat) :
    (alwaysCriticalStep k st jx).2.1 =
      if (p_adic_valuation jx.2 k : Int) > st.1 then some [jx.1]
      else if (p_adic_valuation jx.2 k : Int) = st.1 then st.2.1.map (fun l => l ++ [jx.1])
      else st.2.1 := rfl

theorem always_fold (k : Nat) (L : List (Nat × Nat)) :
    ∀ (st : Int × Option (List Nat) × Option (List Nat)),
    (L.foldl (alwaysCriticalStep k) st).2.2 =
      if st.2.2 = none ∧ (L.filter (fun jx => jx.2 == 1)) = [] then none
      else some (st.2.2.getD [] ++ (L.filter (fun jx => jx.2 == 1)).map Prod.fst) := by
  induction L with
  | nil =>
    intro st
    cases hst : st.2.2 with
    | none => simp [hst]
    | some l => simp [hst]
  | cons jx L ih =>
    intro st
    rw [List.foldl_cons, ih]
    by_cases h1 : jx.2 = 1
    · have hstep := alwaysCriticalStep_always k st jx
      rw [if_pos h1] at hstep
      have hb : (jx.2 == 1) = true := by simp [h1]
      rw [hstep]
      simp only [List.filter_cons, hb, if_pos rfl]
      simp [List.append_assoc]
    · have hstep := alwaysCriticalStep_always k st jx
      rw [if_neg h1] at hstep
      have hb : (jx.2 == 1) = false := by simp [h1]
      rw [hstep]
      simp only [List.filter_cons, hb, Bool.false_eq_true, if_false]

theorem alwaysCritical_fst (k : Nat) (p : List Nat) :
    (alwaysCritical k p).1 =
      if (p.enum.filter (fun jx => jx.2 == 1)) = [] then none
      else some ((p.enum.filter (fun jx => jx.2 == 1)).map Prod.fst) := by
  unfold alwaysCritical
  rw [always_fold]
  by_cases hemp : (p.enum.filter (fun jx => jx.2 == 1)) = [] <;> simp [hemp]

theorem critical_fold_inv (k : Nat) (D : Nat → Prop) :
    ∀ (L : List (Nat × Nat)) (st : Int × Option (List Nat) × Option (List Nat)),
      L.Pairwise (fun a b => a.1 < b.1) →
      (∀ jx ∈ L, D jx.1) →
      (∀ l, st.2.1 = some l → l ≠ [] ∧ l.Pairwise (· < ·) ∧ (∀ j ∈ l, D j) ∧
        (∀ j ∈ l, ∀ jx ∈ L, j < jx.1)) →
      ∀ l, (L.foldl (alwaysCriticalStep k) st).2.1 = some l →
        l ≠ [] ∧ l.Pairwise (· < ·) ∧ ∀ j ∈ l, D j := by
  intro L
  induction L with
  | nil =>
    intro st _ _ hst l hl
    exact ⟨(hst l hl).1, (hst l hl).2.1, (hst l hl).2.2.1⟩
  | cons jx L ih =>
    intro st hL hD hst l hl
    rw [List.foldl_cons] at hl
    refine ih (alwaysCriticalStep k st jx) (List.pairwise_cons.mp hL).2
      (fun jy hy => hD jy (List.mem_cons_of_mem _ hy)) ?_ l hl
    intro l' hl'
    rw [alwaysCriticalStep_critical] at hl'
    split at hl'
    · cases hl'
      refine ⟨List.cons_ne_nil _ _, List.pairwise_singleton _ _, ?_, ?_⟩
      · intro j hj
        rw [List.mem_singleton] at hj
        subst hj
        exact hD jx (by simp)
      · intro j hj jy hy
        rw [List.mem_singleton] at hj
        subst hj
        exact (List.pairwise_cons.mp hL).1 jy hy
    · split at hl'
      · cases hc : st.2.1 with
        | none => rw [hc] at hl'; cases hl'
        | some l0 =>
          rw [hc] at hl'
          rw [Option.map_some'] at hl'
          cases hl'
          obtain ⟨hne, hpw, hDl, hbd⟩ := hst l0 hc
          refine ⟨by simp, ?_, ?_, ?_⟩
          · rw [List.pairwise_append]
            exact ⟨hpw, by simp, fun a ha b hb => by
              rw [List.mem_singleton] at hb
              subst hb
              exact hbd a ha jx (by simp)⟩
          · intro j hj
            rcases List.mem_append.mp hj with hj | hj
            · exact hDl j hj
            · rw [List.mem_singleton] at hj
              subst hj
              exact hD jx (by simp)
          · intro j hj jy hy
            rcases List.mem_append.mp hj with hj | hj
            · exact hbd j hj jy (List.mem_cons_of_mem _ hy)
            · rw [List.mem_singleton] at hj
              subst hj
              exact (List.pairwise_cons.mp hL).1 jy hy
      · obtain ⟨hne, hpw, hDl, hbd⟩ := hst l' hl'
        exact ⟨hne, hpw, hDl, fun j hj jy hy => hbd j hj jy (List.mem_cons_of_mem _ hy)⟩

theorem alwaysCritical_snd_inv (k : Nat) (p : List Nat) (l : List Nat)
    (hl : (alwaysCritical k p).2 = some l) :
    l ≠ [] ∧ l.Pairwise (· < ·) ∧ ∀ j ∈ l, ∃ x, (j, x) ∈ p.enum := by
  refine critical_fold_inv k (fun j => ∃ x, (j, x) ∈ p.enum) p.enum
    (-1, none, none) ?_ ?_ ?_ l hl
  · have : (p.enum.map Prod.fst).Pairwise (· < ·) := by
      rw [List.enum_map_fst]
      exact List.pairwise_lt_range _
    exact List.pairwise_map.mp this
  · intro jx hjx
    exact ⟨jx.2, by simpa using hjx⟩
  · intro l' hl'
    cases hl'

theorem two_le_countP_of_two_mem {α : Type} [DecidableEq α] (pred : α → Bool)
    {l : List α} {a b : α} (hnd : l.Nodup) (ha : a ∈ l) (hb : b ∈ l) (hab : a ≠ b)
    (hpa : pred a = true) (hpb : pred b = true) : 2 ≤ l.countP pred := by
  rw [List.countP_eq_length_filter]
  have ha' : a ∈ l.filter pred := List.mem_filter.mpr ⟨ha, hpa⟩
  have hb' : b ∈ l.filter pred := List.mem_filter.mpr ⟨hb, hpb⟩
  obtain ⟨s, t, hst⟩ := List.append_of_mem ha'
  rw [hst] at hb'
  rcases List.mem_append.mp hb' with hbs | hbt
  · rw [hst]
    simp only [List.length_append, List.length_cons]
    have : 0 < s.length := List.length_pos_of_mem hbs
    omega
  · rcases List.mem_cons.mp hbt with rfl | hbt
    · exact absurd rfl hab
    · rw [hst]
      simp only [List.length_append, List.length_cons]
      have : 0 < t.length := List.length_pos_of_mem hbt
      omega

/-- C5 (confirmed): in the ZERO-sum branch of the order computation, when
the disallowed-critical case holds (`unorient_critical`) and the critical
set is disjoint from the always set, the critical set has exactly one
element — the source's `assert len(critical_orient) == 1` never fails — and
the emitted `CubiePartition` has `critical_orient = None` and order equal to
the plain lcm, not multiplied by the orientation count. -/
theorem C5_disallowed_critical (orbit : Orbit) (k : Nat) (partition : List Nat)
    (hk : orbit.orientation_status =
      OrientationStatus.CanOrient k OrientationSumConstraint.ZERO)
    (hu : unorientCritical k partition (alwaysCritical k partition) = true)
    (hd : criticalIsDisjoint (alwaysCritical k partition) = true) :
    ((alwaysCritical k partition).2.getD []).length = 1 ∧
      orderFromPartition orbit partition =
        some ⟨orbit.name, partition, lcmList partition,
          (alwaysCritical k partition).1, none⟩ := by
  have hord : orderFromPartition orbit partition =
      some ⟨orbit.name, partition, lcmList partition,
        (alwaysCritical k partition).1, none⟩ := by
    rw [orderFromPartition, hk]
    simp only [hu, hd, Bool.not_true, Bool.false_eq_true, if_false]
    simp
  refine ⟨?_, hord⟩
  -- Unpack the disjointness flag.
  unfold criticalIsDisjoint at hd
  rw [Bool.and_eq_true] at hd
  obtain ⟨hsome, hdisj⟩ := hd
  obtain ⟨l, hl⟩ := Option.isSome_iff_exists.mp hsome
  obtain ⟨hne, hpw, hdom⟩ := alwaysCritical_snd_inv k partition l hl
  -- Unpack the orient-count condition.
  unfold unorientCritical at hu
  rw [Bool.and_eq_true, decide_eq_true_iff] at hu
  have hcount : orientCount (alwaysCritical k partition) = partition.length := hu.1
  have hcid : criticalIsDisjoint (alwaysCritical k partition) = true := by
    unfold criticalIsDisjoint
    rw [hsome, hdisj]
    rfl
  -- The number of enum entries with value 1.
  have hc1 : partition.enum.countP (fun jx => jx.2 == 1) + 1 = partition.length := by
    rw [List.countP_eq_length_filter]
    unfold orientCount at hcount
    rw [hcid, if_pos rfl] at hcount
    rw [alwaysCritical_fst] at hcount
    split at hcount
    · rename_i hemp
      rw [hemp]
      simpa using hcount
    · simpa using hcount
  -- Every critical index has value ≠ 1 (disjointness).
  have hne1 : ∀ j ∈ l, ∀ x, (j, x) ∈ partition.enum → (x == 1) = false := by
    intro j hj x hx
    by_contra hcon
    rw [Bool.not_eq_false, beq_iff_eq] at hcon
    subst hcon
    have hmem : j ∈ ((partition.enum.filter (fun jx => jx.2 == 1)).map Prod.fst) := by
      exact List.mem_map.mpr ⟨(j, 1), List.mem_filter.mpr ⟨hx, by simp⟩, rfl⟩
    rcases Bool.or_eq_true _ _ |>.mp hdisj with hnone | hall
    · rw [alwaysCritical_fst] at hnone
      split at hnone
      · rename_i hemp
        rw [hemp] at hmem
        simp at hmem
      · simp at hnone
    · rw [List.all_eq_true] at hall
      have := hall j (by rw [hl]; exact hj)
      rw [alwaysCritical_fst] at this
      split at this
      · rename_i hemp
        rw [hemp] at hmem
        simp at hmem
      · simp only [Option.getD_some, Bool.not_eq_true'] at this
        have hcontains : (List.map Prod.fst (List.filter (fun jx => jx.2 == 1)
            partition.enum)).contains j = true := List.elem_iff.mpr hmem
        rw [hcontains] at this
        cases this
  -- Only one enum entry has value ≠ 1.
  have hcnot : partition.enum.countP (fun jx => !(jx.2 == 1)) = 1 := by
    have htot := List.length_eq_countP_add_countP (fun jx => jx.2 == 1) partition.enum
    rw [List.enum_length] at htot
    have : partition.enum.countP (fun jx => decide ¬(jx.2 == 1) = true) =
        partition.enum.countP (fun jx => !(jx.2 == 1)) := by
      apply List.countP_congr
      intro jx _
      simp
    omega
  have hnodup : partition.enum.Nodup := by
    apply List.Nodup.of_map Prod.fst
    rw [List.enum_map_fst]
    exact List.nodup_range _
  -- All critical indices coincide.
  have huniq : ∀ j ∈ l, ∀ j' ∈ l, j = j' := by
    intro j hj j' hj'
    by_contra hjj
    obtain ⟨x, hx⟩ := hdom j hj
    obtain ⟨x', hx'⟩ := hdom j' hj'
    have h2 : 2 ≤ partition.enum.countP (fun jx => !(jx.2 == 1)) := by
      refine two_le_countP_of_two_mem _ hnodup hx hx' ?_ ?_ ?_
      · intro hcon
        exact hjj (congrArg Prod.fst hcon)
      · simp [hne1 j hj x hx]
      · simp [hne1 j' hj' x' hx']
    omega
  rw [hl]
  simp only [Option.getD_some]
  cases l with
  | nil => exact absurd rfl hne
  | cons a t =>
    cases t with
    | nil => rfl
    | cons b t2 =>
      exfalso
      have hab : a = b := huniq a (by simp) b (by simp)
      have := (List.pairwise_cons.mp hpw).1 b (by simp)
      omega

unseal p_adic_valuation in
theorem C5_disallowed_critical_witness :
    ((⟨"x", 2, OrientationStatus.CanOrient 2 OrientationSumConstraint.ZERO⟩ :
        Orbit).orientation_status =
      OrientationStatus.CanOrient 2 OrientationSumConstraint.ZERO) ∧
    unorientCritical 2 [2] (alwaysCritical 2 [2]) = true ∧
    criticalIsDisjoint (alwaysCritical 2 [2]) = true ∧
    (((alwaysCritical 2 [2]).2.getD []).length = 1 ∧
      orderFromPartition
          ⟨"x", 2, OrientationStatus.CanOrient 2 OrientationSumConstraint.ZERO⟩ [2] =
        some ⟨"x", [2], lcmList [2], (alwaysCritical 2 [2]).1, none⟩) :=
  ⟨rfl, by decide, by decide,
    C5_disallowed_critical
      ⟨"x", 2, OrientationStatus.CanOrient 2 OrientationSumConstraint.ZERO⟩ 2 [2] rfl
      (by decide) (by decide)⟩

/-! Lemmas for C6: characterization of the domination-reduction loop. -/

theorem reduce_aux_mem (flag : Bool) :
    ∀ (l acc : List CubiePartition) (x : CubiePartition),
      x ∈ l.foldl (fun kept q =>
        if kept.any (fun p => domCond flag p q) then kept else kept ++ [q]) acc →
      x ∈ acc ∨ x ∈ l := by
  intro l
  induction l with
  | nil => intro acc x hx; exact Or.inl hx
  | cons q l ih =>
    intro acc x hx
    rw [List.foldl_cons] at hx
    rcases ih _ x hx with hx | hx
    · split at hx
      · exact Or.inl hx
      · rcases List.mem_append.mp hx with hx | hx
        · exact Or.inl hx
        · rw [List.mem_singleton] at hx
          exact Or.inr (hx ▸ List.mem_cons_self q l)
    · exact Or.inr (List.mem_cons_of_mem _ hx)

theorem reduce_aux_prefix (flag : Bool) :
    ∀ (l acc : List CubiePartition),
      ∃ r, l.foldl (fun kept q =>
        if kept.any (fun p => domCond flag p q) then kept else kept ++ [q]) acc =
        acc ++ r := by
  intro l
  induction l with
  | nil => intro acc; exact ⟨[], by simp⟩
  | cons q l ih =>
    intro acc
    rw [List.foldl_cons]
    obtain ⟨r, hr⟩ := ih (if acc.any (fun p => domCond flag p q) then acc else acc ++ [q])
    rw [hr]
    split
    · exact ⟨r, rfl⟩
    · exact ⟨q :: r, by simp⟩

theorem reduceDominated_split (flag : Bool) (l : List CubiePartition) (j : Nat) :
    reduceDominated flag l = (l.drop j).foldl
      (fun kept q => if kept.any (fun p => domCond flag p q) then kept else kept ++ [q])
      (reduceDominated flag (l.take j)) := by
  unfold reduceDominated
  conv_lhs => rw [← List.take_append_drop j l]
  rw [List.foldl_append]

theorem reduceDominated_take_succ (flag : Bool) (l : List CubiePartition) (j : Nat)
    (hj : j < l.length) :
    reduceDominated flag (l.take (j + 1)) =
      if (reduceDominated flag (l.take j)).any
          (fun p => domCond flag p (l.get ⟨j, hj⟩)) then
        reduceDominated flag (l.take j)
      else reduceDominated flag (l.take j) ++ [l.get ⟨j, hj⟩] := by
  unfold reduceDominated
  rw [List.take_succ]
  have hg : l[j]? = some (l.get ⟨j, hj⟩) := by
    rw [List.getElem?_eq_getElem hj]
    simp [List.get_eq_getElem]
  rw [hg]
  rw [List.foldl_append]
  rfl

theorem mem_take_iff_get (l : List CubiePartition) (j : Nat) (p : CubiePartition) :
    p ∈ l.take j ↔ ∃ i, ∃ hi : i < l.length, i < j ∧ l.get ⟨i, hi⟩ = p := by
  constructor
  · intro hp
    rw [List.mem_iff_get] at hp
    obtain ⟨⟨i, hi⟩, hg⟩ := hp
    rw [List.length_take] at hi
    have hil : i < l.length := lt_of_lt_of_le hi (min_le_right _ _)
    have hij : i < j := lt_of_lt_of_le hi (min_le_left _ _)
    refine ⟨i, hil, hij, ?_⟩
    rw [List.get_take l hil hij]
    exact hg
  · rintro ⟨i, hil, hij, rfl⟩
    rw [List.get_take l hil hij]
    exact List.get_mem _ _ _

theorem get_notin_drop_of_nodup (l : List CubiePartition) (hnd : l.Nodup) (j m : Nat)
    (hj : j < l.length) (hjm : j < m) :
    l.get ⟨j, hj⟩ ∉ l.drop m := by
  intro hmem
  rw [List.mem_iff_get] at hmem
  obtain ⟨⟨k, hk⟩, hg⟩ := hmem
  rw [List.length_drop] at hk
  have hkm : m + k < l.length := by omega
  have hdg : l.get ⟨m + k, hkm⟩ = (l.drop m).get ⟨k, by rw [List.length_drop]; omega⟩ :=
    List.get_drop l hkm
  have hg2 : l.get ⟨m + k, hkm⟩ = l.get ⟨j, hj⟩ := by
    rw [hdg]
    exact hg
  have := (hnd.get_inj_iff).mp hg2
  have hval : m + k = j := congrArg Fin.val this
  omega

theorem reduceDominated_take_mem_iff (flag : Bool) (l : List CubiePartition)
    (hnd : l.Nodup) (j : Nat) (p : CubiePartition) :
    p ∈ reduceDominated flag (l.take j) ↔
      p ∈ reduceDominated flag l ∧ p ∈ l.take j := by
  constructor
  · intro hp
    constructor
    · obtain ⟨r, hr⟩ := reduce_aux_prefix flag (l.drop j) (reduceDominated flag (l.take j))
      rw [reduceDominated_split flag l j, hr]
      exact List.mem_append_left _ hp
    · have := reduce_aux_mem flag (l.take j) [] p (by simpa [reduceDominated] using hp)
      simpa using this
  · rintro ⟨hres, htake⟩
    obtain ⟨i, hil, hij, rfl⟩ := (mem_take_iff_get l j _).mp htake
    rw [reduceDominated_split flag l j] at hres
    rcases reduce_aux_mem flag (l.drop j) _ _ hres with h | h
    · exact h
    · exact absurd h (get_notin_drop_of_nodup l hnd i j hil hij)

theorem reduceDominated_get_mem_iff (flag : Bool) (l : List CubiePartition)
    (hnd : l.Nodup) (j : Nat) (hj : j < l.length) :
    l.get ⟨j, hj⟩ ∈ reduceDominated flag l ↔
      ∀ p ∈ reduceDominated flag (l.take j),
        domCond flag p (l.get ⟨j, hj⟩) = false := by
  have hnotink : l.get ⟨j, hj⟩ ∉ reduceDominated flag (l.take j) := by
    intro hmem
    have := (reduceDominated_take_mem_iff flag l hnd j _).mp hmem
    obtain ⟨i, hil, hij, hgi⟩ := (mem_take_iff_get l j _).mp this.2
    have := (hnd.get_inj_iff).mp hgi
    have hval : i = j := congrArg Fin.val this
    omega
  have hsplit : reduceDominated flag l = (l.drop (j + 1)).foldl
      (fun kept q => if kept.any (fun p => domCond flag p q) then kept else kept ++ [q])
      (reduceDominated flag (l.take (j + 1))) := reduceDominated_split flag l (j + 1)
  constructor
  · intro hres p hp
    by_contra hcon
    rw [Bool.not_eq_false] at hcon
    -- then the step at j keeps the accumulator unchanged
    have hany : (reduceDominated flag (l.take j)).any
        (fun q => domCond flag q (l.get ⟨j, hj⟩)) = true :=
      List.any_eq_true.mpr ⟨p, hp, hcon⟩
    rw [hsplit, reduceDominated_take_succ flag l j hj, if_pos hany] at hres
    rcases reduce_aux_mem flag _ _ _ hres with h | h
    · exact hnotink h
    · exact get_notin_drop_of_nodup l hnd j (j + 1) hj (by omega) h
  · intro hall
    have hany : (reduceDominated flag (l.take j)).any
        (fun q => domCond flag q (l.get ⟨j, hj⟩)) = false := by
      rw [List.any_eq_false]
      intro p hp
      rw [hall p hp]
      simp
    obtain ⟨r, hr⟩ := reduce_aux_prefix flag (l.drop (j + 1))
      (reduceDominated flag (l.take (j + 1)))
    rw [hsplit, hr, reduceDominated_take_succ flag l j hj, if_neg (by rw [hany]; simp)]
    exact List.mem_append_left _ (List.mem_append_right _ (by simp))

/-! Nodup of the sorted partition table. -/

theorem setInsert_nodup (x : List Nat) (s : List (List Nat)) (hs : s.Nodup) :
    (setInsert x s).Nodup := by
  unfold setInsert
  split
  · exact hs
  · rename_i hx
    simp [List.nodup_append, hs, hx]

theorem foldl_setInsert_nodup {β : Type} (f : β → List Nat) (ys : List β) :
    ∀ (init : List (List Nat)), init.Nodup →
      (ys.foldl (fun ans y => setInsert (f y) ans) init).Nodup := by
  induction ys with
  | nil => intro init h; exact h
  | cons y ys ih =>
    intro init h
    rw [List.foldl_cons]
    exact ih _ (setInsert_nodup _ _ h)

theorem integer_partitions_nodup (n : Nat) : (integer_partitions n).Nodup := by
  match n with
  | 0 =>
    rw [integer_partitions]
    simp
  | n + 1 =>
    rw [integer_partitions]
    have : ∀ (xs : List {x // x ∈ List.range' 1 n}) (init : List (List Nat)), init.Nodup →
        (xs.foldl (fun answer x =>
          (integer_partitions (n + 1 - x.1)).foldl
            (fun answer y => setInsert (List.insertionSort (· ≤ ·) (x.1 :: y)) answer)
            answer) init).Nodup := by
      intro xs
      induction xs with
      | nil => intro init h; exact h
      | cons x xs ih =>
        intro init h
        rw [List.foldl_cons]
        exact ih _ (foldl_setInsert_nodup _ _ init h)
    exact this _ [[n + 1]] (by simp)

theorem orderFromPartition_partition (orbit : Orbit) (pt : List Nat)
    (cp : CubiePartition) (h : orderFromPartition orbit pt = some cp) :
    cp.partition = pt := by
  unfold orderFromPartition at h
  split at h
  · cases h; rfl
  · split at h
    · cases h; rfl
    · dsimp only at h
      split at h
      · split at h
        · cases h
        · cases h; rfl
      · split at h
        · cases h; rfl
        · cases h; rfl

theorem partitionObjsSorted_nodup (c o : Nat) (s : Bool) (pz : PuzzleOrbitDefinition) :
    (partitionObjsSorted c o s pz).Nodup := by
  unfold partitionObjsSorted
  dsimp only
  apply ((List.perm_insertionSort
    (fun a b : CubiePartition => b.order ≤ a.order) _).symm).nodup
  apply List.Nodup.filterMap
  · intro a a' b hb hb'
    have h1 := orderFromPartition_partition _ _ _ hb
    have h2 := orderFromPartition_partition _ _ _ hb'
    cases s with
    | false =>
      have e1 : b.partition = a := by simpa using h1
      have e2 : b.partition = a' := by simpa using h2
      rw [← e1, ← e2]
    | true =>
      have e1 : b.partition = 1 :: a := by simpa using h1
      have e2 : b.partition = 1 :: a' := by simpa using h2
      have e3 : (1 :: a : List Nat) = 1 :: a' := by rw [← e1, ← e2]
      exact (List.cons.injEq _ _ _ _).mp e3 |>.2
  · exact integer_partitions_nodup c

/-- C6 (confirmed): in `reduced_integer_partitions`, a candidate at position
`j` of the order-descending-sorted table is removed if and only if some
earlier kept entry `p` satisfies: `p.order` is a strict multiple of the
candidate's order, and either the orbit participates in no parity
constraint or the two partitions have equal signatures mod 2. -/
theorem C6_domination_reduction (c o : Nat) (s : Bool) (pz : PuzzleOrbitDefinition)
    (h : EvenParityConstraintsHelper) (j : Nat)
    (hj : j < (partitionObjsSorted c o s pz).length) :
    ((partitionObjsSorted c o s pz).get ⟨j, hj⟩ ∉ reduced_integer_partitions c o s pz h
      ↔ ∃ i, ∃ hi : i < (partitionObjsSorted c o s pz).length, i < j ∧
        (partitionObjsSorted c o s pz).get ⟨i, hi⟩ ∈
          reduced_integer_partitions c o s pz h ∧
        (((partitionObjsSorted c o s pz).get ⟨j, hj⟩).order ∣
            ((partitionObjsSorted c o s pz).get ⟨i, hi⟩).order ∧
          ((partitionObjsSorted c o s pz).get ⟨i, hi⟩).order ≠
            ((partitionObjsSorted c o s pz).get ⟨j, hj⟩).order ∧
          (h.constraint_orbit_flags.getD o false = false ∨
            sign (((partitionObjsSorted c o s pz).get ⟨i, hi⟩).partition) % 2 =
              sign (((partitionObjsSorted c o s pz).get ⟨j, hj⟩).partition) % 2))) := by
  set l := partitionObjsSorted c o s pz with hl
  set flag := h.constraint_orbit_flags.getD o false with hflag
  have hnd : l.Nodup := partitionObjsSorted_nodup c o s pz
  have hdom : ∀ p q : CubiePartition, domCond flag p q = true ↔
      (q.order ∣ p.order ∧ p.order ≠ q.order ∧
        (flag = false ∨ sign p.partition % 2 = sign q.partition % 2)) := by
    intro p q
    unfold domCond
    rw [Bool.and_eq_true, Bool.and_eq_true, Bool.or_eq_true]
    constructor
    · rintro ⟨⟨hmod, hne⟩, hpar⟩
      refine ⟨Nat.dvd_of_mod_eq_zero (by simpa using hmod), by simpa using hne, ?_⟩
      rcases hpar with hflag0 | hsig
      · left
        simpa using hflag0
      · right
        have := decide_eq_true_eq.mp hsig
        omega
    · rintro ⟨hdvd, hne, hpar⟩
      refine ⟨⟨by simp [Nat.mod_eq_zero_of_dvd hdvd], by simpa using hne⟩, ?_⟩
      rcases hpar with hflag0 | hsig
      · left
        simp [hflag0]
      · right
        rw [decide_eq_true_eq]
        omega
  have hchar := reduceDominated_get_mem_iff flag l hnd j hj
  have hred : reduced_integer_partitions c o s pz h = reduceDominated flag l := rfl
  rw [hred]
  rw [not_congr hchar]
  constructor
  · intro hnall
    push_neg at hnall
    obtain ⟨p, hp, hpc⟩ := hnall
    have hptake := (reduceDominated_take_mem_iff flag l hnd j p).mp hp
    obtain ⟨i, hil, hij, rfl⟩ := (mem_take_iff_get l j p).mp hptake.2
    refine ⟨i, hil, hij, hptake.1, ?_⟩
    have := (hdom _ _).mp (by simpa using hpc)
    exact this
  · rintro ⟨i, hil, hij, hmem, hcond⟩
    intro hall
    have hp : l.get ⟨i, hil⟩ ∈ reduceDominated flag (l.take j) := by
      rw [reduceDominated_take_mem_iff flag l hnd j]
      exact ⟨hmem, (mem_take_iff_get l j _).mpr ⟨i, hil, hij, rfl⟩⟩
    have := hall _ hp
    have htrue := (hdom _ _).mpr hcond
    rw [htrue] at this
    cases this

unseal p_adic_valuation integer_partitions in
theorem C6_domination_reduction_witness :
    1 < (partitionObjsSorted 2 0 false onePuzzle).length ∧
    ((partitionObjsSorted 2 0 false onePuzzle).get ⟨1, by decide⟩ ∉
        reduced_integer_partitions 2 0 false onePuzzle onePuzzleHelper
      ↔ ∃ i, ∃ hi : i < (partitionObjsSorted 2 0 false onePuzzle).length, i < 1 ∧
        (partitionObjsSorted 2 0 false onePuzzle).get ⟨i, hi⟩ ∈
          reduced_integer_partitions 2 0 false onePuzzle onePuzzleHelper ∧
        (((partitionObjsSorted 2 0 false onePuzzle).get ⟨1, by decide⟩).order ∣
            ((partitionObjsSorted 2 0 false onePuzzle).get ⟨i, hi⟩).order ∧
          ((partitionObjsSorted 2 0 false onePuzzle).get ⟨i, hi⟩).order ≠
            ((partitionObjsSorted 2 0 false onePuzzle).get ⟨1, by decide⟩).order ∧
          (onePuzzleHelper.constraint_orbit_flags.getD 0 false = false ∨
            sign (((partitionObjsSorted 2 0 false onePuzzle).get ⟨i, hi⟩).partition) % 2 =
              sign (((partitionObjsSorted 2 0 false onePuzzle).get
                ⟨1, by decide⟩).partition) % 2))) :=
  ⟨by decide,
    C6_domination_reduction 2 0 false onePuzzle onePuzzleHelper 1 (by decide)⟩

unseal p_adic_valuation integer_partitions gateLoop searchLoop in
/-- C2 (corrected) counterexample: for `onePuzzle` with cubie-count vector
`(2,)`, the search returns cycles of orders `2, 2, 4`.  The final
`highest_order` is `4` (attained during the later share-vector iteration
over `free_share = (True,)`), but the two order-2 cycles collected during
the earlier `free_share = (False,)` iteration were already extended onto
`shared_cycles` and are never discarded, so the returned list is NOT all at
the final `highest_order`. -/
theorem C2_highest_order_counterexample :
    EvenParityConstraintsHelper.from_puzzle_orbit_definition onePuzzle =
        some onePuzzleHelper ∧
      (highest_order_cycles_from_cubie_counts [2] onePuzzle onePuzzleHelper).map
          Cycle.order = [2, 2, 4] := by
  decide

unseal p_adic_valuation integer_partitions gateLoop searchLoop emitVariantsFrom in
/-- C9 (corrected) counterexample: running the full pipeline on `twoPuzzle`
with `num_cycles = 2` returns two `CycleCombination`s.  Listing each cycle's
sort key (`cycleKey`, the Python tuple `(order, partition_0, partition_1)`
the source sorts by, order first and the per-orbit partitions as tie-break):
the second returned combination is the swapped leading-cycle variant of
step 7; its two cycles are tied on order `2`, yet the leading cycle's
partitions `((), (2))` are lexicographically SMALLER than the second
cycle's `((2), ())` — the tie-break does not hold for the swapped variant
(`natListLt` on the first components witnesses the strict comparison). -/
theorem C9_tie_break_counterexample :
    (optimal_cycle_combinations twoPuzzle 2).map (fun out =>
      out.map (fun comb => comb.cycle_combination.map cycleKey)) =
      some [[[[2], [2], []], [[2], [], [2]]],
            [[[2], [], [2]], [[2], [2], []]]] ∧
    natListLt [] [2] = true := by
  decide

/-! Lemmas for C8: characterization of the per-constraint scan. -/

theorem constraintScan_true (c : EvenParityConstraint) :
    ∀ (L : List (Nat × Orbit)) (flags : List Bool) (f0 : Option Nat) (r0 : List Bool)
      (cnt : Nat),
      (constraintScan c L flags true f0 r0 cnt).2.1 = f0 ∧
      (constraintScan c L flags true f0 r0 cnt).2.2.1 =
        r0 ++ L.map (fun io => c.orbit_names.any (fun nm => io.2.name == nm)) := by
  intro L
  induction L with
  | nil => intro flags f0 r0 cnt; exact ⟨rfl, by simp [constraintScan]⟩
  | cons io L ih =>
    intro flags f0 r0 cnt
    rw [constraintScan]
    obtain ⟨h1, h2⟩ := ih (if c.orbit_names.any (fun nm => io.2.name == nm) then
        flags.set io.1 true else flags) f0
      (r0 ++ [c.orbit_names.any (fun nm => io.2.name == nm)])
      (if c.orbit_names.any (fun nm => io.2.name == nm) then cnt + 1 else cnt)
    rw [if_pos rfl]
    refine ⟨h1, ?_⟩
    rw [h2]
    simp

theorem constraintScan_false (c : EvenParityConstraint) :
    ∀ (l : List Orbit) (k : Nat) (flags : List Bool) (cnt : Nat),
      ((constraintScan c (List.enumFrom k l) flags false none [] cnt).2.1 =
        (if l.findIdx (fun orbit => c.orbit_names.any (fun nm => orbit.name == nm)) <
            l.length then
          some (k + l.findIdx (fun orbit => c.orbit_names.any (fun nm => orbit.name == nm)))
        else none)) ∧
      (constraintScan c (List.enumFrom k l) flags false none [] cnt).2.2.1 =
        (l.drop (l.findIdx (fun orbit => c.orbit_names.any (fun nm => orbit.name == nm)) + 1)).map
          (fun orbit => c.orbit_names.any (fun nm => orbit.name == nm)) := by
  intro l
  induction l with
  | nil =>
    intro k flags cnt
    simp [constraintScan, List.findIdx]
  | cons o l ih =>
    intro k flags cnt
    rw [List.enumFrom_cons, constraintScan]
    by_cases ho : (c.orbit_names.any (fun nm => o.name == nm)) = true
    · simp only [ho, Bool.false_eq_true, eq_self_iff_true, if_true, if_false]
      have hfi : (o :: l).findIdx
          (fun orbit => c.orbit_names.any (fun nm => orbit.name == nm)) = 0 := by
        rw [List.findIdx_cons, ho]
        rfl
      obtain ⟨h1, h2⟩ := constraintScan_true c (List.enumFrom (k + 1) l)
        (flags.set k true) (some k) [] (cnt + 1)
      constructor
      · rw [h1, hfi, if_pos (by simp)]
        simp
      · rw [h2, hfi]
        simp only [List.drop_succ_cons, List.drop_zero, List.nil_append]
        rw [show (fun io : Nat × Orbit => c.orbit_names.any (fun nm => io.2.name == nm)) =
          ((fun orbit => c.orbit_names.any (fun nm => orbit.name == nm)) ∘ Prod.snd)
          from rfl]
        rw [← List.map_map, List.enumFrom_map_snd]
    · have ho2 : (c.orbit_names.any (fun nm => o.name == nm)) = false :=
        Bool.eq_false_iff.mpr ho
      simp only [ho2, Bool.false_eq_true, if_false]
      have hfi : (o :: l).findIdx
          (fun orbit => c.orbit_names.any (fun nm => orbit.name == nm)) =
          l.findIdx (fun orbit => c.orbit_names.any (fun nm => orbit.name == nm)) + 1 := by
        rw [List.findIdx_cons, ho2]
        rfl
      obtain ⟨h1, h2⟩ := ih (k + 1) flags cnt
      constructor
      · rw [h1, hfi]
        simp only [List.length_cons]
        by_cases hlt : l.findIdx
            (fun orbit => c.orbit_names.any (fun nm => orbit.name == nm)) < l.length
        · rw [if_pos hlt, if_pos (by omega)]
          rw [Option.some.injEq]
          omega
        · rw [if_neg hlt, if_neg (by omega)]
      · rw [h2, hfi, List.drop_succ_cons]

theorem fromPuzzleLoop_pairs (pz : PuzzleOrbitDefinition) :
    ∀ (cs : List EvenParityConstraint) (flags : List Bool)
      (pairs0 : List (Nat × List Bool)) (f : List Bool) (pairs : List (Nat × List Bool)),
      fromPuzzleLoop pz.orbits cs flags pairs0 = some (f, pairs) →
      pairs = pairs0 ++ cs.map (specConstraintSummary pz) := by
  intro cs
  induction cs with
  | nil =>
    intro flags pairs0 f pairs h
    rw [fromPuzzleLoop] at h
    cases h
    simp
  | cons c cs ih =>
    intro flags pairs0 f pairs h
    rw [fromPuzzleLoop] at h
    split at h
    · cases h
    · split at h
      · cases h
      · rename_i fi hfi
        obtain ⟨hfirst, hrest⟩ := constraintScan_false c pz.orbits 0 flags 0
        have henum : pz.orbits.enum = List.enumFrom 0 pz.orbits := rfl
        rw [henum] at hfi
        rw [hfirst] at hfi
        have hlt : pz.orbits.findIdx
            (fun orbit => c.orbit_names.any (fun nm => orbit.name == nm)) <
            pz.orbits.length := by
          by_contra hcon
          rw [if_neg hcon] at hfi
          cases hfi
        rw [if_pos hlt, Option.some.injEq] at hfi
        have := ih _ _ _ _ h
        rw [this, List.append_assoc]
        congr 1
        rw [List.singleton_append]
        congr 1
        unfold specConstraintSummary
        rw [henum, hrest]
        rw [← hfi]
        simp
  
/-- C8 (corrected, amended): for every puzzle whose helper construction
succeeds, `first_constraint_indicies` is sorted descending, and the list of
`(first_index, rest_flags)` pairs is a permutation of the per-constraint
summaries in which the first index is the SMALLEST orbit index the
constraint touches (not the largest) and the rest flags give one
participation boolean for each orbit index strictly greater than the first
index, in index order. -/
theorem C8_helper_amended (pz : PuzzleOrbitDefinition) (h : EvenParityConstraintsHelper)
    (hh : EvenParityConstraintsHelper.from_puzzle_orbit_definition pz = some h) :
    h.first_constraint_indicies.Pairwise (fun a b => b ≤ a) ∧
    (h.first_constraint_indicies.zip h.rest_constraint_flags).Perm
      (pz.even_parity_constraints.map (specConstraintSummary pz)) := by
  rw [EvenParityConstraintsHelper.from_puzzle_orbit_definition] at hh
  split at hh
  · cases hh
  · rename_i flags pairs hlp
    rw [Option.some.injEq] at hh
    subst hh
    haveI htot : IsTotal (Nat × List Bool) (fun a b => b.1 ≤ a.1) :=
      ⟨fun a b => le_total b.1 a.1⟩
    haveI htr : IsTrans (Nat × List Bool) (fun a b => b.1 ≤ a.1) :=
      ⟨fun _ _ _ hab hbc => le_trans hbc hab⟩
    constructor
    · have hs := List.sorted_insertionSort (fun a b : Nat × List Bool => b.1 ≤ a.1) pairs
      exact hs.map Prod.fst (fun a b hab => hab)
    · have hzip : ((List.insertionSort (fun a b : Nat × List Bool => b.1 ≤ a.1)
          pairs).map Prod.fst).zip
          ((List.insertionSort (fun a b : Nat × List Bool => b.1 ≤ a.1) pairs).map
            Prod.snd) =
          List.insertionSort (fun a b : Nat × List Bool => b.1 ≤ a.1) pairs :=
        Eq.symm (List.zip_of_prod rfl rfl)
      rw [hzip]
      have hpairs := fromPuzzleLoop_pairs pz pz.even_parity_constraints _ _ _ _ hlp
      rw [List.nil_append] at hpairs
      rw [← hpairs]
      exact List.perm_insertionSort _ _

/-- C8 (corrected) counterexample: for the two-orbit puzzle whose single
parity constraint names both orbits, the helper records first index `0` —
the SMALLEST participating orbit index — while the participating indices
are `0` and `1`, so the largest touched index is `1 ≠ 0`; the claim that
`first_constraint_indicies` holds the largest touched index is false. -/
theorem C8_first_index_counterexample :
    (EvenParityConstraintsHelper.from_puzzle_orbit_definition twoParityPuzzle).map
        (fun h => h.first_constraint_indicies) = some [0] ∧
    (List.range twoParityPuzzle.orbits.length).filter
        (fun i => (twoParityPuzzle.even_parity_constraints.getD 0 ⟨[]⟩).orbit_names.any
          (fun nm => (twoParityPuzzle.orbits.getD i defaultOrbit).name == nm)) =
      [0, 1] ∧
    (0 : Nat) ≠ 1 := by
  decide

theorem C8_helper_amended_witness :
    EvenParityConstraintsHelper.from_puzzle_orbit_definition twoParityPuzzle =
        some ⟨[0], [[true]], [true, true]⟩ ∧
      ((⟨[0], [[true]], [true, true]⟩ :
          EvenParityConstraintsHelper).first_constraint_indicies.Pairwise
          (fun a b => b ≤ a) ∧
        ((⟨[0], [[true]], [true, true]⟩ :
            EvenParityConstraintsHelper).first_constraint_indicies.zip
          (⟨[0], [[true]], [true, true]⟩ :
            EvenParityConstraintsHelper).rest_constraint_flags).Perm
          (twoParityPuzzle.even_parity_constraints.map
            (specConstraintSummary twoParityPuzzle))) :=
  ⟨by decide, C8_helper_amended twoParityPuzzle _ (by decide)⟩

/-! Lemmas for C10: the reduced tables produced under the share policy are
never empty. -/

theorem p_adic_one (k : Nat) : p_adic_valuation 1 k = 0 := by
  rw [p_adic_valuation]
  rw [dif_neg]
  rintro ⟨h2, hmod, _⟩
  have h1 : 1 % k = 1 := Nat.mod_eq_of_lt (by omega)
  omega

theorem alwaysCritical_nil (k : Nat) : alwaysCritical k [] = (none, none) := rfl

theorem alwaysCritical_single (k c : Nat) (hc : c ≠ 1) :
    alwaysCritical k [c] = (none, some [0]) := by
  have hstep := alwaysCriticalStep_critical k (-1, none, none) (0, c)
  have hstep2 := alwaysCriticalStep_always k (-1, none, none) (0, c)
  have hpos : ((p_adic_valuation c k : Int) > -1) :=
    lt_of_lt_of_le (by norm_num) (Int.natCast_nonneg _)
  unfold alwaysCritical
  rw [show ([c] : List Nat).enum = [(0, c)] from rfl, List.foldl_cons, List.foldl_nil]
  rw [Prod.ext_iff]
  constructor
  · rw [hstep2]
    exact if_neg hc
  · rw [hstep]
    rw [if_pos hpos]

theorem alwaysCriticalStep_first (k : Nat) :
    alwaysCriticalStep k (-1, none, none) (0, 1) = ((0 : Int), some [0], some [0]) := by
  unfold alwaysCriticalStep
  rw [p_adic_one]
  norm_num

theorem alwaysCritical_one_one (k : Nat) :
    alwaysCritical k [1, 1] = (some [0, 1], some [0, 1]) := by
  unfold alwaysCritical
  rw [show ([1, 1] : List Nat).enum = [(0, 1), (1, 1)] from rfl]
  rw [List.foldl_cons, List.foldl_cons, List.foldl_nil, alwaysCriticalStep_first]
  unfold alwaysCriticalStep
  rw [p_adic_one]
  norm_num

theorem alwaysCritical_one_c (k c : Nat) (hc : c ≠ 1) :
    alwaysCritical k [1, c] = (some [0], some [1]) ∨
    alwaysCritical k [1, c] = (some [0], some [0, 1]) := by
  unfold alwaysCritical
  rw [show ([1, c] : List Nat).enum = [(0, 1), (1, c)] from rfl]
  rw [List.foldl_cons, List.foldl_cons, List.foldl_nil, alwaysCriticalStep_first]
  have hstepc := alwaysCriticalStep_critical k ((0 : Int), some [0], some [0]) (1, c)
  have hstepa := alwaysCriticalStep_always k ((0 : Int), some [0], some [0]) (1, c)
  dsimp only at hstepc hstepa
  rw [if_neg hc] at hstepa
  by_cases hv : p_adic_valuation c k = 0
  · right
    rw [Prod.ext_iff]
    constructor
    · rw [hstepa]
    · rw [hstepc, hv]
      norm_num
  · left
    rw [Prod.ext_iff]
    constructor
    · rw [hstepa]
    · rw [hstepc]
      rw [if_pos (by exact_mod_cast Nat.pos_of_ne_zero hv)]

theorem orderFromPartition_isSome (orbit : Orbit) (pt : List Nat)
    (hz : ∀ k, orbit.orientation_status =
        OrientationStatus.CanOrient k OrientationSumConstraint.ZERO →
      unorientCritical k pt (alwaysCritical k pt) = false ∨
        criticalIsDisjoint (alwaysCritical k pt) = true) :
    (orderFromPartition orbit pt).isSome = true := by
  unfold orderFromPartition
  split
  · rfl
  · rename_i k sc heq
    cases sc with
    | NONE => rfl
    | ZERO =>
      dsimp only
      rcases hz k heq with hu | hd
      · rw [hu]
        simp only [Bool.false_eq_true, if_false]
        split
        · rfl
        · rfl
      · split
        · rw [hd]
          simp only [Bool.not_true, Bool.false_eq_true, if_false]
          rfl
        · split
          · rfl
          · rfl

theorem reduceDominated_ne_nil (flag : Bool) (l : List CubiePartition) (hl : l ≠ []) :
    reduceDominated flag l ≠ [] := by
  cases l with
  | nil => exact absurd rfl hl
  | cons q rest =>
    unfold reduceDominated
    rw [List.foldl_cons]
    have hstep : (if ([] : List CubiePartition).any (fun p => domCond flag p q) then
        ([] : List CubiePartition) else [] ++ [q]) = [q] := by simp
    rw [hstep]
    obtain ⟨r, hr⟩ := reduce_aux_prefix flag rest [q]
    rw [hr]
    simp

theorem partitionObjsSorted_ne_nil (c i : Nat) (s : Bool) (pz : PuzzleOrbitDefinition)
    (p : List Nat) (hp : p ∈ integer_partitions c)
    (hsome : (orderFromPartition (pz.orbits.getD i defaultOrbit)
      (if s then 1 :: p else p)).isSome = true) :
    partitionObjsSorted c i s pz ≠ [] := by
  unfold partitionObjsSorted
  intro hnil
  have hperm := List.perm_insertionSort (fun a b : CubiePartition => b.order ≤ a.order)
    ((integer_partitions c).filterMap
      (fun q => orderFromPartition (pz.orbits.getD i defaultOrbit)
        (if s then 1 :: q else q)))
  rw [hnil] at hperm
  have hempty : (integer_partitions c).filterMap
      (fun q => orderFromPartition (pz.orbits.getD i defaultOrbit)
        (if s then 1 :: q else q)) = [] := hperm.symm.eq_nil
  obtain ⟨cp, hcp⟩ := Option.isSome_iff_exists.mp hsome
  have : cp ∈ (integer_partitions c).filterMap
      (fun q => orderFromPartition (pz.orbits.getD i defaultOrbit)
        (if s then 1 :: q else q)) :=
    List.mem_filterMap.mpr ⟨p, hp, hcp⟩
  rw [hempty] at this
  cases this

theorem unorient_nil (k : Nat) :
    unorientCritical k [] (alwaysCritical k []) = false := by
  rw [alwaysCritical_nil]
  simp [unorientCritical, orientCount, criticalIsDisjoint]

theorem unorient_one_one (k : Nat) :
    unorientCritical k [1, 1] (alwaysCritical k [1, 1]) = false := by
  rw [alwaysCritical_one_one]
  simp [unorientCritical, orientCount, criticalIsDisjoint]

theorem cid_single (k c : Nat) (hc : c ≠ 1) :
    criticalIsDisjoint (alwaysCritical k [c]) = true := by
  rw [alwaysCritical_single k c hc]
  decide

theorem survive_one_c (k c : Nat) (hc : c ≠ 1) :
    unorientCritical k [1, c] (alwaysCritical k [1, c]) = false ∨
      criticalIsDisjoint (alwaysCritical k [1, c]) = true := by
  rcases alwaysCritical_one_c k c hc with hac | hac
  · right
    rw [hac]
    decide
  · left
    rw [hac]
    simp [unorientCritical, orientCount, criticalIsDisjoint]

theorem buildShare_length :
    ∀ (states : List ShareState) (free : List Bool),
      (buildShare states free).length = states.length := by
  intro states
  induction states with
  | nil => intro free; rfl
  | cons st sts ih =>
    intro free
    cases st <;> simp [buildShare, ih]

theorem shareStates_length (pz : PuzzleOrbitDefinition) (ccc : List Nat) :
    (shareStates pz ccc).length = ccc.length := by
  simp [shareStates, List.enum_length]

theorem buildShare_getD :
    ∀ (states : List ShareState) (free : List Bool) (i : Nat),
      (states.getD i ShareState.FREE = ShareState.CANNOT_SHARE_ORIENTATION →
        (buildShare states free).getD i false = false) ∧
      (states.getD i ShareState.FREE = ShareState.MUST_SHARE_ORIENTATION →
        (buildShare states free).getD i false = true) := by
  intro states
  induction states with
  | nil =>
    intro free i
    constructor <;> intro h <;> simp [List.getD] at h
  | cons st sts ih =>
    intro free i
    cases i with
    | zero =>
      cases st with
      | FREE =>
        constructor <;> intro h <;> simp [List.getD_cons_zero] at h
      | CANNOT_SHARE_ORIENTATION =>
        refine ⟨fun _ => rfl, fun h => ?_⟩
        simp [List.getD_cons_zero] at h
      | MUST_SHARE_ORIENTATION =>
        refine ⟨fun h => ?_, fun _ => rfl⟩
        simp [List.getD_cons_zero] at h
    | succ j =>
      cases st with
      | FREE =>
        have := ih free.tail j
        simpa [buildShare, List.getD_cons_succ] using this
      | CANNOT_SHARE_ORIENTATION =>
        have := ih free j
        simpa [buildShare, List.getD_cons_succ] using this
      | MUST_SHARE_ORIENTATION =>
        have := ih free j
        simpa [buildShare, List.getD_cons_succ] using this

theorem shareStates_getD (pz : PuzzleOrbitDefinition) (ccc : List Nat) (i : Nat)
    (hi : i < ccc.length) :
    (shareStates pz ccc).getD i ShareState.FREE =
      (if ccc.getD i 0 = 0 ∨ (pz.orbits.getD i defaultOrbit).orientation_status =
          OrientationStatus.CannotOrient then ShareState.CANNOT_SHARE_ORIENTATION
       else if ccc.getD i 0 = 1 then ShareState.MUST_SHARE_ORIENTATION
       else ShareState.FREE) := by
  unfold shareStates
  have hlen : i < (ccc.enum.map (fun ic =>
      if ic.2 = 0 ∨ (pz.orbits.getD ic.1 defaultOrbit).orientation_status =
          OrientationStatus.CannotOrient then ShareState.CANNOT_SHARE_ORIENTATION
      else if ic.2 = 1 then ShareState.MUST_SHARE_ORIENTATION
      else ShareState.FREE)).length := by
    simpa [List.enum_length] using hi
  rw [List.getD_eq_getElem _ _ hlen, List.getElem_map, List.getElem_enum,
    List.getD_eq_getElem _ _ hi]

/-- C10 (confirmed): for every puzzle definition, parity helper, cubie-count
vector and free-share choice vector, every per-orbit table built by
`highest_order_cycles_from_cubie_counts` — namely
`reduced_integer_partitions` at budget `ccc[i]` with the share flag assembled
by the share-state policy (share forced `True` exactly when the budget is 1
and the orbit `CanOrient`, forced `False` when the budget is 0 or the orbit
`CannotOrient`, free otherwise) — is non-empty: at least one partition
survives the ZERO-sum feasibility rejection, so taking `table[0]` to build
`rest_upper_bounds` never fails. -/
theorem C10_tables_nonempty (pz : PuzzleOrbitDefinition) (h : EvenParityConstraintsHelper)
    (ccc : List Nat) (free : List Bool) (i : Nat) :
    reduced_integer_partitions (ccc.getD i 0) i
      ((buildShare (shareStates pz ccc) free).getD i false) pz h ≠ [] := by
  apply reduceDominated_ne_nil
  by_cases hc0 : ccc.getD i 0 = 0
  · -- budget 0: the policy forces share = False and the empty partition survives
    have hs : (buildShare (shareStates pz ccc) free).getD i false = false := by
      by_cases hin : i < ccc.length
      · exact (buildShare_getD (shareStates pz ccc) free i).1
          (by rw [shareStates_getD pz ccc i hin, if_pos (Or.inl hc0)])
      · apply List.getD_eq_default
        rw [buildShare_length, shareStates_length]
        omega
    rw [hs, hc0]
    refine partitionObjsSorted_ne_nil 0 i false pz [] ?_ ?_
    · exact (integer_partitions_mem 0 []).mpr ⟨List.sorted_nil, by simp, rfl⟩
    · apply orderFromPartition_isSome
      intro k _
      exact Or.inl (unorient_nil k)
  · have hin : i < ccc.length := by
      by_contra hlt
      exact hc0 (List.getD_eq_default _ _ (by omega))
    rcases horient : (pz.orbits.getD i defaultOrbit).orientation_status with _ | ⟨k0, sc0⟩
    · -- CannotOrient: no partition is ever rejected, [budget] works
      refine partitionObjsSorted_ne_nil _ i _ pz [ccc.getD i 0] ?_ ?_
      · exact (integer_partitions_mem _ _).mpr
          ⟨List.sorted_singleton _, by intro x hx; rw [List.mem_singleton] at hx; subst hx; omega, by simp⟩
      · apply orderFromPartition_isSome
        intro k heq
        rw [horient] at heq
        exact OrientationStatus.noConfusion heq
    · cases sc0 with
      | NONE =>
        -- CanOrient with NONE sum constraint: no rejection either
        refine partitionObjsSorted_ne_nil _ i _ pz [ccc.getD i 0] ?_ ?_
        · exact (integer_partitions_mem _ _).mpr
            ⟨List.sorted_singleton _, by intro x hx; rw [List.mem_singleton] at hx; subst hx; omega, by simp⟩
        · apply orderFromPartition_isSome
          intro k heq
          rw [horient] at heq
          injection heq with h1 h2
          exact OrientationSumConstraint.noConfusion h2
      | ZERO =>
        by_cases hc1 : ccc.getD i 0 = 1
        · -- budget 1, CanOrient ZERO: share forced True, [1, 1] survives
          have hs : (buildShare (shareStates pz ccc) free).getD i false = true := by
            refine (buildShare_getD (shareStates pz ccc) free i).2 ?_
            rw [shareStates_getD pz ccc i hin]
            rw [if_neg (by
              push_neg
              refine ⟨hc0, ?_⟩
              rw [horient]
              intro hh
              exact OrientationStatus.noConfusion hh)]
            rw [if_pos hc1]
          rw [hs, hc1]
          refine partitionObjsSorted_ne_nil 1 i true pz [1] ?_ ?_
          · exact (integer_partitions_mem _ _).mpr
              ⟨List.sorted_singleton _, by simp, by simp⟩
          · apply orderFromPartition_isSome
            intro k _
            exact Or.inl (unorient_one_one k)
        · -- budget at least 2, CanOrient ZERO: both share values admit a partition
          cases hsv : (buildShare (shareStates pz ccc) free).getD i false with
          | false =>
            refine partitionObjsSorted_ne_nil _ i false pz [ccc.getD i 0] ?_ ?_
            · exact (integer_partitions_mem _ _).mpr
                ⟨List.sorted_singleton _, by intro x hx; rw [List.mem_singleton] at hx; subst hx; omega, by simp⟩
            · apply orderFromPartition_isSome
              intro k _
              exact Or.inr (cid_single k _ hc1)
          | true =>
            refine partitionObjsSorted_ne_nil _ i true pz [ccc.getD i 0] ?_ ?_
            · exact (integer_partitions_mem _ _).mpr
                ⟨List.sorted_singleton _, by intro x hx; rw [List.mem_singleton] at hx; subst hx; omega, by simp⟩
            · apply orderFromPartition_isSome
              intro k _
              exact survive_one_c k _ hc1

theorem searchLoop_nil (tables : List (List CubiePartition)) (rub : List Nat)
    (h : EvenParityConstraintsHelper) (share : List Bool)
    (path : List (Option CubiePartition)) (highest : Nat) (cycles : List Cycle) :
    searchLoop tables rub h share [] path highest cycles = (highest, cycles) := by
  rw [searchLoop]

theorem searchLoop_cons_none (tables : List (List CubiePartition)) (rub : List Nat)
    (h : EvenParityConstraintsHelper) (share : List Bool) (f : Frame) (rest : List Frame)
    (path : List (Option CubiePartition)) (highest : Nat) (cycles : List Cycle)
    (hg : gateLoop h f.obj (if f.obj.isSome then path.set f.lv f.obj else path)
        f.lv f.next_constraint = none) :
    searchLoop tables rub h share (f :: rest) path highest cycles =
      searchLoop tables rub h share rest
        (if f.obj.isSome then path.set f.lv f.obj else path) highest cycles := by
  rw [searchLoop]
  dsimp only
  rw [hg]

theorem searchLoop_cons_some_pos (tables : List (List CubiePartition)) (rub : List Nat)
    (h : EvenParityConstraintsHelper) (share : List Bool) (f : Frame) (rest : List Frame)
    (path : List (Option CubiePartition)) (highest : Nat) (cycles : List Cycle) (nx : Nat)
    (hg : gateLoop h f.obj (if f.obj.isSome then path.set f.lv f.obj else path)
        f.lv f.next_constraint = some nx)
    (hlv : f.lv ≠ 0) :
    searchLoop tables rub h share (f :: rest) path highest cycles =
      searchLoop tables rub h share
        ((pushFrames (tables.getD (f.lv - 1) []) f.running_order
            (rub.getD (f.lv - 1) 1) highest nx (f.lv - 1)).reverse ++ rest)
        (if f.obj.isSome then path.set f.lv f.obj else path) highest cycles := by
  rw [searchLoop]
  dsimp only
  rw [hg]
  dsimp only
  rw [if_pos hlv]

theorem searchLoop_cons_some_zero (tables : List (List CubiePartition)) (rub : List Nat)
    (h : EvenParityConstraintsHelper) (share : List Bool) (f : Frame) (rest : List Frame)
    (path : List (Option CubiePartition)) (highest : Nat) (cycles : List Cycle) (nx : Nat)
    (hg : gateLoop h f.obj (if f.obj.isSome then path.set f.lv f.obj else path)
        f.lv f.next_constraint = some nx)
    (hlv : f.lv = 0) :
    searchLoop tables rub h share (f :: rest) path highest cycles =
      (if f.running_order < highest then
        searchLoop tables rub h share rest
          (if f.obj.isSome then path.set f.lv f.obj else path) highest
          (if f.running_order > highest then [] else cycles)
      else
        searchLoop tables rub h share rest
          (if f.obj.isSome then path.set f.lv f.obj else path) f.running_order
          ((if f.running_order > highest then [] else cycles) ++
            [⟨f.running_order, share,
              if f.obj.isSome then path.set f.lv f.obj else path⟩])) := by
  rw [searchLoop]
  dsimp only
  rw [hg]
  dsimp only
  rw [if_neg (fun hh => hh hlv)]

theorem searchLoop_invariant (tables : List (List CubiePartition)) (rub : List Nat)
    (h : EvenParityConstraintsHelper) (share : List Bool) :
    ∀ (stack : List Frame) (path : List (Option CubiePartition)) (highest : Nat)
      (cycles : List Cycle),
      (∀ c ∈ cycles, c.order = highest) →
      highest ≤ (searchLoop tables rub h share stack path highest cycles).1 ∧
      ∀ c ∈ (searchLoop tables rub h share stack path highest cycles).2,
        c.order = (searchLoop tables rub h share stack path highest cycles).1 := by
  intro stack path highest cycles
  induction stack, path, highest, cycles using searchLoop.induct tables rub h share with
  | case1 path highest cycles =>
    intro hInv
    rw [searchLoop_nil]
    exact ⟨le_refl _, hInv⟩
  | case2 f rest path highest cycles path1 hgate ih =>
    intro hInv
    rw [searchLoop_cons_none tables rub h share f rest path highest cycles hgate]
    exact ih hInv
  | case3 f rest path highest cycles path1 nx hgate hlv ih =>
    intro hInv
    rw [searchLoop_cons_some_pos tables rub h share f rest path highest cycles nx hgate hlv]
    exact ih hInv
  | case4 f rest path highest cycles path1 nx hgate hlv cycles1 hlt ih =>
    intro hInv
    rw [searchLoop_cons_some_zero tables rub h share f rest path highest cycles nx hgate
      (by omega)]
    rw [if_pos hlt]
    have hngt : ¬f.running_order > highest := by omega
    have h1 : cycles1 = cycles := if_neg hngt
    rw [h1] at ih
    rw [if_neg hngt]
    exact ih hInv
  | case5 f rest path highest cycles path1 nx hgate hlv cycles1 hge ih =>
    intro hInv
    rw [searchLoop_cons_some_zero tables rub h share f rest path highest cycles nx hgate
      (by omega)]
    rw [if_neg hge]
    have hx : ∀ c ∈ cycles1 ++ [(⟨f.running_order, share, path1⟩ : Cycle)],
        c.order = f.running_order := by
      intro c hc
      rcases List.mem_append.mp hc with hc | hc
      · by_cases hgt : f.running_order > highest
        · have h0 : cycles1 = [] := if_pos hgt
          rw [h0] at hc
          cases hc
        · have h1 : cycles1 = cycles := if_neg hgt
          rw [h1] at hc
          have := hInv c hc
          omega
      · rw [List.mem_singleton] at hc
        subst hc
        rfl
    have hres := ih hx
    exact ⟨le_trans (Nat.not_lt.mp hge) hres.1, hres.2⟩

theorem searchIteration_invariant (ccc : List Nat) (pz : PuzzleOrbitDefinition)
    (h : EvenParityConstraintsHelper) (highest : Nat) (free : List Bool) :
    highest ≤ (searchIteration ccc pz h highest free).1 ∧
    ∀ c ∈ (searchIteration ccc pz h highest free).2,
      c.order = (searchIteration ccc pz h highest free).1 := by
  unfold searchIteration
  exact searchLoop_invariant _ _ _ _ _ _ _ _ (by intro c hc; cases hc)

theorem searchFold_aux (ccc : List Nat) (pz : PuzzleOrbitDefinition)
    (h : EvenParityConstraintsHelper) :
    ∀ (fs : List (List Bool)) (st : Nat × List Cycle),
      (∀ c ∈ st.2, c.order ≤ st.1) →
      st.1 ≤ (fs.foldl (fun st free =>
          let res := searchIteration ccc pz h st.1 free
          (res.1, st.2 ++ res.2)) st).1 ∧
      ∀ c ∈ (fs.foldl (fun st free =>
          let res := searchIteration ccc pz h st.1 free
          (res.1, st.2 ++ res.2)) st).2,
        c.order ≤ (fs.foldl (fun st free =>
          let res := searchIteration ccc pz h st.1 free
          (res.1, st.2 ++ res.2)) st).1 := by
  intro fs
  induction fs with
  | nil =>
    intro st hst
    exact ⟨le_refl _, hst⟩
  | cons free fs ih =>
    intro st hst
    rw [List.foldl_cons]
    have hit := searchIteration_invariant ccc pz h st.1 free
    have hnext : ∀ c ∈ st.2 ++ (searchIteration ccc pz h st.1 free).2,
        c.order ≤ (searchIteration ccc pz h st.1 free).1 := by
      intro c hc
      rcases List.mem_append.mp hc with hc | hc
      · exact le_trans (hst c hc) hit.1
      · exact le_of_eq (hit.2 c hc)
    have hrec := ih ((searchIteration ccc pz h st.1 free).1,
      st.2 ++ (searchIteration ccc pz h st.1 free).2) hnext
    exact ⟨le_trans hit.1 hrec.1, hrec.2⟩

/-- C2 (corrected, amended): `highest_order` persists across `free_share`
iterations while each iteration's `cycles` accumulate onto `shared_cycles`,
so what genuinely holds is: (1) within each `free_share` iteration the
running `highest_order` never decreases, and every cycle returned by that
iteration's search has order exactly the iteration's final `highest_order`;
hence (2) every cycle returned by `highest_order_cycles_from_cubie_counts`
has order at most the final `highest_order` — but, as the counterexample
shows, not necessarily equal to it. -/
theorem C2_highest_order_amended (ccc : List Nat) (pz : PuzzleOrbitDefinition)
    (h : EvenParityConstraintsHelper) :
    (∀ (free : List Bool) (highest : Nat),
        highest ≤ (searchIteration ccc pz h highest free).1 ∧
        ∀ c ∈ (searchIteration ccc pz h highest free).2,
          c.order = (searchIteration ccc pz h highest free).1) ∧
    ∀ c ∈ highest_order_cycles_from_cubie_counts ccc pz h,
      c.order ≤ (searchFold ccc pz h).1 := by
  refine ⟨fun free highest => searchIteration_invariant ccc pz h highest free, ?_⟩
  have heq : highest_order_cycles_from_cubie_counts ccc pz h =
      (searchFold ccc pz h).2 := rfl
  rw [heq]
  have hall := searchFold_aux ccc pz h
    (freeShareProducts
      ((shareStates pz ccc).countP (fun st => decide (st = ShareState.FREE))))
    (1, []) (by intro c hc; cases hc)
  intro c hc
  exact hall.2 c hc

unseal p_adic_valuation integer_partitions gateLoop searchLoop in
theorem C2_highest_order_amended_witness :
    ((highest_order_cycles_from_cubie_counts [2] onePuzzle onePuzzleHelper).headD
        defaultCycle ∈
      highest_order_cycles_from_cubie_counts [2] onePuzzle onePuzzleHelper) ∧
    ((highest_order_cycles_from_cubie_counts [2] onePuzzle onePuzzleHelper).headD
        defaultCycle).order ≤ (searchFold [2] onePuzzle onePuzzleHelper).1 :=
  ⟨by decide,
    (C2_highest_order_amended [2] onePuzzle onePuzzleHelper).2 _ (by decide)⟩



theorem lexLe_total {α : Type} (lt : α → α → Bool) :
    ∀ (u v : List α), lexLe lt u v = true ∨ lexLe lt v u = true := by
  intro u
  induction u with
  | nil => intro v; left; rfl
  | cons a as ih =>
    intro v
    cases v with
    | nil => right; rfl
    | cons b bs =>
      by_cases hab : lt a b = true
      · left; simp [lexLe, hab]
      · by_cases hba : lt b a = true
        · right; simp [lexLe, hba]
        · rcases ih bs with hr | hr
          · left; simp [lexLe, hab, hba, hr]
          · right; simp [lexLe, hab, hba, hr]

theorem natListLe_refl (a : List Nat) : natListLe a a = true := by
  induction a with
  | nil => rfl
  | cons x xs ih => simp [natListLe, lexLe, lt_irrefl] at ih ⊢; exact ih

theorem natListLe_total (a b : List Nat) : natListLe a b = true ∨ natListLe b a = true :=
  lexLe_total _ a b

theorem natListLe_trans :
    ∀ (a b c : List Nat), natListLe a b = true → natListLe b c = true →
      natListLe a c = true := by
  intro a
  induction a with
  | nil => intro b c _ _; rfl
  | cons x xs ih =>
    intro b c h1 h2
    cases b with
    | nil => simp [natListLe, lexLe] at h1
    | cons y ys =>
      cases c with
      | nil => simp [natListLe, lexLe] at h2
      | cons z zs =>
        simp only [natListLe, lexLe] at h1 h2 ⊢
        by_cases hxy : x < y
        · by_cases hyz : y < z
          · have : x < z := by omega
            simp [this]
          · by_cases hzy : z < y
            · simp [hyz, hzy] at h2
            · have hyz' : y = z := by omega
              subst hyz'
              simp [hxy]
        · by_cases hyx : y < x
          · simp [hxy, hyx] at h1
          · have hxy' : x = y := by omega
            subst hxy'
            by_cases hyz : x < z
            · simp [hyz]
            · by_cases hzy : z < x
              · simp [hyz, hzy] at h2
              · have : x = z := by omega
                subst this
                simp [lt_irrefl] at h1 h2 ⊢
                exact ih ys zs h1 h2

theorem natListLe_antisymm :
    ∀ (a b : List Nat), natListLe a b = true → natListLe b a = true → a = b := by
  intro a
  induction a with
  | nil =>
    intro b _ h2
    cases b with
    | nil => rfl
    | cons y ys => simp [natListLe, lexLe] at h2
  | cons x xs ih =>
    intro b h1 h2
    cases b with
    | nil => simp [natListLe, lexLe] at h1
    | cons y ys =>
      simp only [natListLe, lexLe] at h1 h2
      by_cases hxy : x < y
      · simp [hxy, show ¬y < x by omega] at h2
      · by_cases hyx : y < x
        · simp [hxy, hyx] at h1
        · have : x = y := by omega
          subst this
          simp [lt_irrefl] at h1 h2
          rw [ih ys h1 h2]

theorem natListLt_false_eq (a b : List Nat) (h1 : natListLt a b = false)
    (h2 : natListLt b a = false) : a = b := by
  unfold natListLt at h1 h2
  rcases natListLe_total a b with hle | hle
  · rw [hle] at h1
    simp at h1
    exact natListLe_antisymm a b hle h1
  · rw [hle] at h2
    simp at h2
    exact (natListLe_antisymm b a hle h2).symm

theorem natListLt_trans (a b c : List Nat) (h1 : natListLt a b = true)
    (h2 : natListLt b c = true) : natListLt a c = true := by
  unfold natListLt at h1 h2 ⊢
  rw [Bool.and_eq_true] at h1 h2
  have hab := h1.1
  have hnba := h1.2
  have hbc := h2.1
  have hncb := h2.2
  rw [Bool.and_eq_true]
  refine ⟨natListLe_trans a b c hab hbc, ?_⟩
  simp only [Bool.not_eq_true'] at hnba hncb ⊢
  by_contra hca
  rw [Bool.not_eq_false] at hca
  have := natListLe_trans c a b hca hab
  rw [this] at hncb
  cases hncb

theorem lexLe_natListLt_trans :
    ∀ (u v w : List (List Nat)), lexLe natListLt u v = true →
      lexLe natListLt v w = true → lexLe natListLt u w = true := by
  intro u
  induction u with
  | nil => intro v w _ _; rfl
  | cons a as ih =>
    intro v w h1 h2
    cases v with
    | nil => simp [lexLe] at h1
    | cons b bs =>
      cases w with
      | nil => simp [lexLe] at h2
      | cons c cs =>
        simp only [lexLe] at h1 h2 ⊢
        by_cases hab : natListLt a b = true
        · by_cases hbc : natListLt b c = true
          · simp [natListLt_trans a b c hab hbc]
          · by_cases hcb : natListLt c b = true
            · simp [hbc, hcb] at h2
            · have : b = c := natListLt_false_eq b c
                (Bool.not_eq_true _ ▸ hbc) (Bool.not_eq_true _ ▸ hcb)
              subst this
              simp [hab]
        · by_cases hba : natListLt b a = true
          · simp [hab, hba] at h1
          · have : a = b := natListLt_false_eq a b
              (Bool.not_eq_true _ ▸ hab) (Bool.not_eq_true _ ▸ hba)
            subst this
            rw [if_neg hab, if_neg hba] at h1
            by_cases hac : natListLt a c = true
            · simp [hac]
            · by_cases hca : natListLt c a = true
              · rw [if_neg hac, if_pos hca] at h2
                cases h2
              · have : a = c := natListLt_false_eq a c
                  (Bool.not_eq_true _ ▸ hac) (Bool.not_eq_true _ ▸ hca)
                subst this
                rw [if_neg hac, if_neg hca] at h2 ⊢
                exact ih bs cs h1 h2



theorem natListLt_single (x y : Nat) : natListLt [x] [y] = decide (x < y) := by
  by_cases h : x < y
  · have h2 : ¬y < x := by omega
    simp [natListLt, natListLe, lexLe, h, h2]
  · by_cases h2 : y < x
    · simp [natListLt, natListLe, lexLe, h, h2]
    · have : x = y := by omega
      subst this
      simp [natListLt, natListLe, lexLe, lt_irrefl]

theorem cycleKey_le_order (a b : Cycle)
    (hle : lexLe natListLt (cycleKey b) (cycleKey a) = true) : b.order ≤ a.order := by
  simp only [cycleKey, lexLe] at hle
  rw [natListLt_single, natListLt_single] at hle
  by_cases h : b.order < a.order
  · omega
  · rw [if_neg (by simpa using h)] at hle
    by_cases h2 : a.order < b.order
    · rw [if_pos (by simpa using h2)] at hle
      cases hle
    · omega

theorem sortCyclesDescending_sorted (l : List Cycle) :
    List.Sorted (fun a b : Cycle => lexLe natListLt (cycleKey b) (cycleKey a) = true)
      (sortCyclesDescending l) := by
  haveI : IsTotal Cycle
      (fun a b : Cycle => lexLe natListLt (cycleKey b) (cycleKey a) = true) :=
    ⟨fun a b => lexLe_total natListLt (cycleKey b) (cycleKey a)⟩
  haveI : IsTrans Cycle
      (fun a b : Cycle => lexLe natListLt (cycleKey b) (cycleKey a) = true) :=
    ⟨fun a b c hab hbc => lexLe_natListLt_trans _ _ _ hbc hab⟩
  exact List.sorted_insertionSort _ l

theorem sortCyclesDescending_map_order (l : List Cycle) :
    List.Sorted (fun x y : Nat => y ≤ x) ((sortCyclesDescending l).map Cycle.order) := by
  rw [List.Sorted, List.pairwise_map]
  exact (sortCyclesDescending_sorted l).imp (fun h => cycleKey_le_order _ _ h)

theorem set_getD_self {α : Type} (l : List α) (d : α) :
    ∀ n, l.set n (l.getD n d) = l := by
  induction l with
  | nil => intro n; rfl
  | cons x xs ih =>
    intro n
    cases n with
    | zero => rfl
    | succ m =>
      rw [List.getD_cons_succ]
      show x :: xs.set m (xs.getD m d) = x :: xs
      rw [ih m]

theorem getD_map_order (l : List Cycle) :
    ∀ n, (l.map Cycle.order).getD n defaultCycle.order = (l.getD n defaultCycle).order := by
  induction l with
  | nil => intro n; rfl
  | cons x xs ih =>
    intro n
    cases n with
    | zero => rfl
    | succ m => simp [List.getD_cons_succ, ih m]

theorem swapHead_map_order (dcc : List Cycle) (i : Nat)
    (hord : (dcc.getD i defaultCycle).order = (dcc.getD 0 defaultCycle).order) :
    (swapHead dcc i).map Cycle.order = dcc.map Cycle.order := by
  unfold swapHead
  rw [List.map_set, List.map_set]
  rw [show Cycle.order (dcc.getD i defaultCycle) = (dcc.map Cycle.order).getD 0
      defaultCycle.order by rw [getD_map_order]; exact hord]
  rw [set_getD_self]
  rw [show Cycle.order (dcc.getD 0 defaultCycle) = (dcc.map Cycle.order).getD i
      defaultCycle.order by rw [getD_map_order]; exact hord.symm]
  rw [set_getD_self]

theorem emitVariantsFrom_mem (dcc : List Cycle) :
    ∀ (i : Nat), ∀ v ∈ emitVariantsFrom dcc i,
      v = dcc ∨ ∃ j, (dcc.getD j defaultCycle).order = (dcc.getD 0 defaultCycle).order ∧
        v = swapHead dcc j := by
  intro i
  induction i using emitVariantsFrom.induct dcc with
  | case1 hlt ih =>
    intro v hv
    rw [emitVariantsFrom, dif_pos hlt, if_pos rfl] at hv
    rcases List.mem_cons.mp hv with rfl | hv
    · exact Or.inl rfl
    · exact ih v hv
  | case2 x hlt hx0 hne =>
    intro v hv
    rw [emitVariantsFrom, dif_pos hlt, if_neg hx0, if_pos hne] at hv
    cases hv
  | case3 x hlt hx0 hnne hpe ih =>
    intro v hv
    rw [emitVariantsFrom, dif_pos hlt, if_neg hx0, if_neg hnne, if_pos hpe] at hv
    exact ih v hv
  | case4 x hlt hx0 hnne hnpe ih =>
    intro v hv
    rw [emitVariantsFrom, dif_pos hlt, if_neg hx0, if_neg hnne, if_neg hnpe] at hv
    rcases List.mem_cons.mp hv with rfl | hv
    · exact Or.inr ⟨x, not_ne_iff.mp hnne, rfl⟩
    · exact ih v hv
  | case5 x hnlt =>
    intro v hv
    rw [emitVariantsFrom, dif_neg hnlt] at hv
    cases hv



theorem pareto_fold_mem :
    ∀ (l : List CycleCombination) (acc : List CycleCombination),
      ∀ co ∈ l.foldl (fun pareto_points maybe_redundant =>
          if pareto_points.all (fun p => !cycle_combination_dominates p maybe_redundant) then
            pareto_points ++ [maybe_redundant] else pareto_points) acc,
        co ∈ acc ∨ co ∈ l := by
  intro l
  induction l with
  | nil => intro acc co hco; exact Or.inl hco
  | cons m l ih =>
    intro acc co hco
    rw [List.foldl_cons] at hco
    rcases ih _ co hco with hco | hco
    · split at hco
      · rcases List.mem_append.mp hco with hm | hm
        · exact Or.inl hm
        · rw [List.mem_singleton] at hm
          subst hm
          exact Or.inr (List.mem_cons_self _ _)
      · exact Or.inl hco
    · exact Or.inr (List.mem_cons_of_mem m hco)

theorem pareto_subset (objs : List CycleCombination) :
    ∀ co ∈ pareto_efficient_cycle_combinations objs, co ∈ objs := by
  intro co hco
  unfold pareto_efficient_cycle_combinations at hco
  rcases pareto_fold_mem _ [] co hco with hn | hn
  · cases hn
  · exact (List.perm_insertionSort _ objs).mem_iff.mp hn

theorem combosFromSharedCombination_cycles (pz : PuzzleOrbitDefinition) (u : List Nat)
    (scc : List Cycle) :
    ∀ co ∈ combosFromSharedCombination pz u scc,
      co.cycle_combination ∈ emitVariantsFrom (sortCyclesDescending scc) 0 := by
  intro co hco
  unfold combosFromSharedCombination at hco
  dsimp only at hco
  split at hco
  · cases hco
  · rcases List.mem_map.mp hco with ⟨variant, hv, rfl⟩
    exact hv

theorem emitVariantsFrom_head (dcc : List Cycle) (hne : dcc ≠ []) :
    (emitVariantsFrom dcc 0).headD [] = dcc := by
  rw [emitVariantsFrom, dif_pos (List.length_pos.mpr hne), if_pos rfl]
  rfl

/-- C9 (corrected, amended): every `CycleCombination` returned by
`optimal_cycle_combinations` has its cycles sorted by order descending, and
is either sorted by the full descending key `(order, *partitions)` — so
cycles tied on order appear in descending lexicographic order of their
per-orbit partition tuples — or is that key-sorted combination with a
later cycle of EQUAL order swapped into position 0.  The unswapped
(`i = 0`) variant is exactly the key-sorted combination (the first emission
of the variant loop), so the tie-break holds there; the swapped variants
of step 7 violate it (see the counterexample). -/
theorem C9_tie_break_amended (pz : PuzzleOrbitDefinition) (num_cycles : Nat)
    (out : List CycleCombination)
    (hout : optimal_cycle_combinations pz num_cycles = some out) :
    (∀ co ∈ out,
      List.Sorted (fun x y : Nat => y ≤ x) (co.cycle_combination.map Cycle.order) ∧
      (List.Sorted (fun a b : Cycle =>
          lexLe natListLt (cycleKey b) (cycleKey a) = true) co.cycle_combination ∨
        ∃ dcc j, List.Sorted (fun a b : Cycle =>
            lexLe natListLt (cycleKey b) (cycleKey a) = true) dcc ∧
          (dcc.getD j defaultCycle).order = (dcc.getD 0 defaultCycle).order ∧
          co.cycle_combination = swapHead dcc j)) ∧
    (∀ scc : List Cycle, List.Sorted (fun a b : Cycle =>
        lexLe natListLt (cycleKey b) (cycleKey a) = true) (sortCyclesDescending scc)) ∧
    (∀ dcc : List Cycle, dcc ≠ [] → (emitVariantsFrom dcc 0).headD [] = dcc) := by
  refine ⟨?_, fun scc => sortCyclesDescending_sorted scc,
    fun dcc hne => emitVariantsFrom_head dcc hne⟩
  intro co hco
  unfold optimal_cycle_combinations at hout
  cases hh : EvenParityConstraintsHelper.from_puzzle_orbit_definition pz with
  | none =>
    rw [hh] at hout
    cases hout
  | some h =>
    rw [hh, Option.map_some'] at hout
    have hout' := Option.some.inj hout
    subst hout'
    have hin := pareto_subset _ co hco
    rcases List.mem_flatMap.mp hin with ⟨ucc, hucc, hin2⟩
    rcases List.mem_flatMap.mp hin2 with ⟨rows, hrows, hin3⟩
    split at hin3
    · cases hin3
    · dsimp only at hin3
      rcases List.mem_flatMap.mp hin3 with ⟨accc, haccc, hin4⟩
      rcases List.mem_flatMap.mp hin4 with ⟨scc, hscc, hin5⟩
      have hvar := combosFromSharedCombination_cycles pz ucc scc co hin5
      rcases emitVariantsFrom_mem (sortCyclesDescending scc) 0 co.cycle_combination hvar
        with heq | ⟨j, hordj, heq⟩
      · refine ⟨?_, Or.inl ?_⟩
        · rw [heq]
          exact sortCyclesDescending_map_order scc
        · rw [heq]
          exact sortCyclesDescending_sorted scc
      · refine ⟨?_, Or.inr ⟨sortCyclesDescending scc, j,
          sortCyclesDescending_sorted scc, hordj, heq⟩⟩
        rw [heq, swapHead_map_order _ _ hordj]
        exact sortCyclesDescending_map_order scc

unseal p_adic_valuation integer_partitions gateLoop searchLoop emitVariantsFrom in
theorem C9_tie_break_amended_witness :
    optimal_cycle_combinations twoPuzzle 2 =
        some ((optimal_cycle_combinations twoPuzzle 2).getD []) ∧
    (((optimal_cycle_combinations twoPuzzle 2).getD []).headD ⟨[], 1, [], []⟩ ∈
        (optimal_cycle_combinations twoPuzzle 2).getD []) ∧
    (List.Sorted (fun x y : Nat => y ≤ x)
      ((((optimal_cycle_combinations twoPuzzle 2).getD []).headD
          ⟨[], 1, [], []⟩).cycle_combination.map Cycle.order) ∧
      (List.Sorted (fun a b : Cycle => lexLe natListLt (cycleKey b) (cycleKey a) = true)
          (((optimal_cycle_combinations twoPuzzle 2).getD []).headD
            ⟨[], 1, [], []⟩).cycle_combination ∨
        ∃ dcc j, List.Sorted (fun a b : Cycle =>
            lexLe natListLt (cycleKey b) (cycleKey a) = true) dcc ∧
          (dcc.getD j defaultCycle).order = (dcc.getD 0 defaultCycle).order ∧
          (((optimal_cycle_combinations twoPuzzle 2).getD []).headD
            ⟨[], 1, [], []⟩).cycle_combination = swapHead dcc j)) :=
  ⟨by decide, by decide,
    (C9_tie_break_amended twoPuzzle 2 ((optimal_cycle_combinations twoPuzzle 2).getD [])
      (by decide)).1
      (((optimal_cycle_combinations twoPuzzle 2).getD []).headD ⟨[], 1, [], []⟩)
      (by decide)⟩



theorem dominatesLoop_all_le :
    ∀ (ps : List (Cycle × Cycle)) (d s : Bool), dominatesLoop ps d s = true →
      ∀ p ∈ ps, p.2.order ≤ p.1.order := by
  intro ps
  induction ps with
  | nil => intro d s _ p hp; cases hp
  | cons q rest ih =>
    obtain ⟨tc, oc⟩ := q
    intro d s h p hp
    simp only [dominatesLoop] at h
    by_cases hoc : oc.order > tc.order
    · rw [if_pos hoc] at h
      cases h
    · rw [if_neg hoc] at h
      rcases List.mem_cons.mp hp with rfl | hp
      · dsimp only
        omega
      · by_cases hd : d = true
        · rw [if_pos hd] at h
          exact ih d s h p hp
        · rw [if_neg hd] at h
          exact ih _ _ h p hp

theorem dominatesLoop_cases :
    ∀ (ps : List (Cycle × Cycle)) (s : Bool), dominatesLoop ps false s = true →
      (∃ p ∈ ps, p.2.order < p.1.order) ∨
      (s = true ∧ ∀ p ∈ ps, p.1.order = p.2.order ∧ partitionsEqual p.1 p.2 = true) := by
  intro ps
  induction ps with
  | nil =>
    intro s h
    right
    refine ⟨?_, by intro p hp; cases hp⟩
    simpa [dominatesLoop] using h
  | cons q rest ih =>
    obtain ⟨tc, oc⟩ := q
    intro s h
    simp only [dominatesLoop] at h
    by_cases hoc : oc.order > tc.order
    · rw [if_pos hoc] at h
      cases h
    · rw [if_neg hoc] at h
      simp only [Bool.false_eq_true, if_false, Bool.false_or] at h
      by_cases htc : tc.order > oc.order
      · exact Or.inl ⟨(tc, oc), List.mem_cons_self _ _, htc⟩
      · rw [show decide (tc.order > oc.order) = false from by simp [htc]] at h
        rcases ih _ h with ⟨p, hp, hlt⟩ | ⟨hs, hall⟩
        · exact Or.inl ⟨p, List.mem_cons_of_mem _ hp, hlt⟩
        · right
          rw [Bool.and_eq_true] at hs
          refine ⟨hs.1, ?_⟩
          intro p hp
          rcases List.mem_cons.mp hp with rfl | hp
          · exact ⟨by dsimp only; omega, hs.2⟩
          · exact hall p hp

theorem dominatesLoop_of_equal :
    ∀ (ps : List (Cycle × Cycle)),
      (∀ p ∈ ps, p.1.order = p.2.order ∧ partitionsEqual p.1 p.2 = true) →
      dominatesLoop ps false true = true := by
  intro ps
  induction ps with
  | nil => intro _; rfl
  | cons q rest ih =>
    obtain ⟨tc, oc⟩ := q
    intro hall
    have hq := hall (tc, oc) (List.mem_cons_self _ _)
    dsimp only at hq
    simp only [dominatesLoop]
    rw [if_neg (show ¬oc.order > tc.order by omega)]
    simp only [Bool.false_eq_true, if_false, Bool.false_or]
    rw [show decide (tc.order > oc.order) = false from by simp; omega]
    rw [show partitionsEqual tc oc = true from hq.2]
    exact ih (fun p hp => hall p (List.mem_cons_of_mem _ hp))

theorem partitionsEqual_symm (tc oc : Cycle) (h : partitionsEqual tc oc = true) :
    partitionsEqual oc tc = true := by
  unfold partitionsEqual at h ⊢
  rw [List.all_eq_true] at h ⊢
  intro p hp
  rw [← List.zip_swap] at hp
  rcases List.mem_map.mp hp with ⟨q, hq, rfl⟩
  have hqe := h q hq
  rw [beq_iff_eq] at hqe
  show (q.2 == q.1) = true
  rw [beq_iff_eq]
  exact hqe.symm

theorem foldl_mul_le :
    ∀ (X Y : List Cycle) (a b : Nat), X.length = Y.length → a ≤ b →
      (∀ p ∈ Y.zip X, p.2.order ≤ p.1.order) →
      X.foldl (fun acc c => acc * c.order) a ≤ Y.foldl (fun acc c => acc * c.order) b := by
  intro X
  induction X with
  | nil =>
    intro Y a b hlen hab _
    cases Y with
    | nil => simpa using hab
    | cons _ _ => simp at hlen
  | cons x xs ih =>
    intro Y a b hlen hab hall
    cases Y with
    | nil => simp at hlen
    | cons y ys =>
      rw [List.foldl_cons, List.foldl_cons]
      refine ih ys _ _ (by simpa using hlen) ?_ ?_
      · have hxy := hall (y, x) (by rw [List.zip_cons_cons]; exact List.mem_cons_self _ _)
        dsimp only at hxy
        exact Nat.mul_le_mul hab hxy
      · intro p hp
        exact hall p (by rw [List.zip_cons_cons]; exact List.mem_cons_of_mem _ hp)

theorem natListLe_map_order_false :
    ∀ (Y X : List Cycle), X.length = Y.length →
      (∀ p ∈ Y.zip X, p.2.order ≤ p.1.order) →
      (∃ p ∈ Y.zip X, p.2.order < p.1.order) →
      natListLe (Y.map Cycle.order) (X.map Cycle.order) = false := by
  intro Y
  induction Y with
  | nil =>
    intro X _ _ hex
    obtain ⟨p, hp, _⟩ := hex
    simp [List.zip] at hp
  | cons y ys ih =>
    intro X hlen hall hex
    cases X with
    | nil => simp at hlen
    | cons x xs =>
      have hhead := hall (y, x) (by rw [List.zip_cons_cons]; exact List.mem_cons_self _ _)
      dsimp only at hhead
      simp only [List.map_cons, natListLe, lexLe]
      by_cases hlt : x.order < y.order
      · rw [if_neg (by simp only [decide_eq_true_eq]; omega),
          if_pos (by simp only [decide_eq_true_eq]; omega)]
      · rw [if_neg (by simp only [decide_eq_true_eq]; omega),
          if_neg (by simp only [decide_eq_true_eq]; omega)]
        refine ih xs (by simpa using hlen) ?_ ?_
        · intro p hp
          exact hall p (by rw [List.zip_cons_cons]; exact List.mem_cons_of_mem _ hp)
        · obtain ⟨p, hp, hplt⟩ := hex
          rw [List.zip_cons_cons] at hp
          rcases List.mem_cons.mp hp with rfl | hp
          · dsimp only at hplt
            exact absurd hplt (by omega)
          · exact ⟨p, hp, hplt⟩

theorem paretoKey_not_le_of_strict (X Y : CycleCombination) (n : Nat)
    (hlenX : X.cycle_combination.length = n) (hlenY : Y.cycle_combination.length = n)
    (hopX : X.order_product = X.cycle_combination.foldl (fun a c => a * c.order) 1)
    (hopY : Y.order_product = Y.cycle_combination.foldl (fun a c => a * c.order) 1)
    (hall : ∀ p ∈ Y.cycle_combination.zip X.cycle_combination, p.2.order ≤ p.1.order)
    (hex : ∃ p ∈ Y.cycle_combination.zip X.cycle_combination, p.2.order < p.1.order) :
    natListLe (paretoKey Y) (paretoKey X) = false := by
  have hle : X.order_product ≤ Y.order_product := by
    rw [hopX, hopY]
    exact foldl_mul_le _ _ 1 1 (by omega) (le_refl 1) hall
  simp only [paretoKey, natListLe, lexLe]
  by_cases hlt : X.order_product < Y.order_product
  · rw [if_neg (by simp only [decide_eq_true_eq]; omega),
      if_pos (by simp only [decide_eq_true_eq]; omega)]
  · rw [if_neg (by simp only [decide_eq_true_eq]; omega),
      if_neg (by simp only [decide_eq_true_eq]; omega)]
    exact natListLe_map_order_false _ _ (by omega) hall hex



theorem dominates_later_earlier_false (X Y : CycleCombination) (n : Nat)
    (hlenX : X.cycle_combination.length = n) (hlenY : Y.cycle_combination.length = n)
    (hopX : X.order_product = X.cycle_combination.foldl (fun a c => a * c.order) 1)
    (hopY : Y.order_product = Y.cycle_combination.foldl (fun a c => a * c.order) 1)
    (hsorted : natListLe (paretoKey Y) (paretoKey X) = true)
    (hXY : cycle_combination_dominates X Y = false) :
    cycle_combination_dominates Y X = false := by
  by_contra hcon
  rw [Bool.not_eq_false] at hcon
  unfold cycle_combination_dominates at hcon
  have hall' := dominatesLoop_all_le _ _ _ hcon
  rcases dominatesLoop_cases _ _ hcon with hstrict | ⟨hs, hall⟩
  · have hfalse := paretoKey_not_le_of_strict X Y n hlenX hlenY hopX hopY hall' hstrict
    rw [hfalse] at hsorted
    cases hsorted
  · rw [decide_eq_true_eq] at hs
    have hdom : cycle_combination_dominates X Y = true := by
      unfold cycle_combination_dominates
      rw [show decide (X.share_orders = Y.share_orders) = true from by rw [hs]; simp]
      apply dominatesLoop_of_equal
      intro p hp
      have hsw : (p.2, p.1) ∈ Y.cycle_combination.zip X.cycle_combination := by
        rw [← List.zip_swap]
        exact List.mem_map.mpr ⟨p, hp, rfl⟩
      have hq := hall _ hsw
      dsimp only at hq
      exact ⟨hq.1.symm, partitionsEqual_symm _ _ hq.2⟩
    rw [hdom] at hXY
    cases hXY

theorem pareto_fold_pairwise (objs : List CycleCombination) (n : Nat)
    (hop : ∀ o ∈ objs,
      o.order_product = o.cycle_combination.foldl (fun a c => a * c.order) 1)
    (hlen : ∀ o ∈ objs, o.cycle_combination.length = n) :
    ∀ (l : List CycleCombination) (acc : List CycleCombination),
      (∀ b ∈ l, b ∈ objs) → (∀ a ∈ acc, a ∈ objs) →
      List.Pairwise (fun a b => natListLe (paretoKey b) (paretoKey a) = true) l →
      (∀ a ∈ acc, ∀ b ∈ l, natListLe (paretoKey b) (paretoKey a) = true) →
      List.Pairwise (fun A B => cycle_combination_dominates A B = false ∧
        cycle_combination_dominates B A = false) acc →
      List.Pairwise (fun A B => cycle_combination_dominates A B = false ∧
        cycle_combination_dominates B A = false)
        (l.foldl (fun pareto_points maybe_redundant =>
          if pareto_points.all (fun p => !cycle_combination_dominates p maybe_redundant) then
            pareto_points ++ [maybe_redundant] else pareto_points) acc) := by
  intro l
  induction l with
  | nil =>
    intro acc _ _ _ _ hpacc
    exact hpacc
  | cons m l ih =>
    intro acc hlmem haccmem hpl haccl hpacc
    rw [List.foldl_cons]
    by_cases hkeep : acc.all (fun p => !cycle_combination_dominates p m) = true
    · rw [if_pos hkeep]
      refine ih (acc ++ [m]) (fun b hb => hlmem b (List.mem_cons_of_mem _ hb)) ?_ hpl.tail
        ?_ ?_
      · intro a ha
        rcases List.mem_append.mp ha with ha | ha
        · exact haccmem a ha
        · rw [List.mem_singleton] at ha
          subst ha
          exact hlmem a (List.mem_cons_self _ _)
      · intro a ha b hb
        rcases List.mem_append.mp ha with ha | ha
        · exact haccl a ha b (List.mem_cons_of_mem _ hb)
        · rw [List.mem_singleton] at ha
          subst ha
          exact (List.pairwise_cons.mp hpl).1 b hb
      · rw [List.pairwise_append]
        refine ⟨hpacc, List.pairwise_singleton _ _, ?_⟩
        intro a ha b hb
        rw [List.mem_singleton] at hb
        subst hb
        have h1 : cycle_combination_dominates a b = false := by
          have := List.all_eq_true.mp hkeep a ha
          rw [Bool.not_eq_true'] at this
          exact this
        refine ⟨h1, ?_⟩
        exact dominates_later_earlier_false a b n
          (hlen a (haccmem a ha)) (hlen b (hlmem b (List.mem_cons_self _ _)))
          (hop a (haccmem a ha)) (hop b (hlmem b (List.mem_cons_self _ _)))
          (haccl a ha b (List.mem_cons_self _ _)) h1
    · rw [if_neg hkeep]
      exact ih acc (fun b hb => hlmem b (List.mem_cons_of_mem _ hb)) haccmem hpl.tail
        (fun a ha b hb => haccl a ha b (List.mem_cons_of_mem _ hb)) hpacc

/-- C3 (corrected, amended): when every candidate's `order_product` is the
product of its cycle orders AND all candidates carry the same number of
cycles (as holds for every candidate the enumerator feeds to the filter,
all of length `num_cycles`), no kept combination dominates another kept
one in either direction.  Without the equal-length assumption the claim
fails (see the counterexample): `zip` truncates to the shorter cycle list,
so a shorter combination can dominate a longer one that precedes it in the
sort order. -/
theorem C3_pareto_minimal (objs : List CycleCombination) (n : Nat)
    (hop : ∀ o ∈ objs,
      o.order_product = o.cycle_combination.foldl (fun a c => a * c.order) 1)
    (hlen : ∀ o ∈ objs, o.cycle_combination.length = n) :
    List.Pairwise (fun A B => cycle_combination_dominates A B = false ∧
      cycle_combination_dominates B A = false)
      (pareto_efficient_cycle_combinations objs) := by
  unfold pareto_efficient_cycle_combinations
  haveI : IsTotal CycleCombination
      (fun a b => natListLe (paretoKey b) (paretoKey a) = true) :=
    ⟨fun a b => lexLe_total _ (paretoKey b) (paretoKey a)⟩
  haveI : IsTrans CycleCombination
      (fun a b => natListLe (paretoKey b) (paretoKey a) = true) :=
    ⟨fun a b c hab hbc => natListLe_trans _ _ _ hbc hab⟩
  refine pareto_fold_pairwise objs n hop hlen _ [] ?_ ?_ ?_ ?_ ?_
  · intro b hb
    exact (List.perm_insertionSort _ objs).mem_iff.mp hb
  · intro a ha
    cases ha
  · exact List.sorted_insertionSort _ objs
  · intro a ha
    cases ha
  · exact List.Pairwise.nil

/-- C3 (corrected) counterexample: with the claim's own assumption satisfied
(each `order_product` equals the product of the cycle orders), the filter
keeps both `cexA` (cycles of orders `2, 3`) and `cexB` (a single cycle of
order `3`), yet `cycle_combination_dominates cexB cexA = true`: the `zip`
in the domination test truncates to `cexB`'s single cycle, whose order `3`
strictly beats `cexA`'s leading order `2`. -/
theorem C3_pareto_counterexample :
    (∀ o ∈ [cexA, cexB], o.order_product =
        o.cycle_combination.foldl (fun a c => a * c.order) 1) ∧
    pareto_efficient_cycle_combinations [cexA, cexB] = [cexA, cexB] ∧
    cexA ≠ cexB ∧
    cycle_combination_dominates cexB cexA = true := by
  decide

theorem C3_pareto_minimal_witness :
    (∀ o ∈ [cexC, cexD], o.order_product =
        o.cycle_combination.foldl (fun a c => a * c.order) 1) ∧
    (∀ o ∈ [cexC, cexD], o.cycle_combination.length = 2) ∧
    List.Pairwise (fun A B => cycle_combination_dominates A B = false ∧
      cycle_combination_dominates B A = false)
      (pareto_efficient_cycle_combinations [cexC, cexD]) :=
  ⟨by decide, by decide, C3_pareto_minimal [cexC, cexD] 2 (by decide) (by decide)⟩



theorem getD_set_self {α : Type} (l : List α) (n : Nat) (v d : α) (hn : n < l.length) :
    (l.set n v).getD n d = v := by
  rw [List.getD_eq_getElem _ _ (by rw [List.length_set]; exact hn)]
  exact List.getElem_set_self _

theorem getD_set_ne {α : Type} (l : List α) (n m : Nat) (v d : α) (hnm : n ≠ m) :
    (l.set n v).getD m d = l.getD m d := by
  rw [List.getD_eq_getElem?_getD, List.getD_eq_getElem?_getD, List.getElem?_set_ne hnm]

theorem gateSum_set_lt (h : EvenParityConstraintsHelper) (k : Nat)
    (path : List (Option CubiePartition)) (w : Nat) (v : Option CubiePartition)
    (hw : w < h.first_constraint_indicies.getD k 0) :
    gateSum h k (path.set w v) = gateSum h k path := by
  unfold gateSum
  rw [getD_set_ne _ _ _ _ _ (by omega), List.drop_set_of_lt _ _ (by omega)]

theorem pushFrames_mem :
    ∀ (tbl : List CubiePartition) (ro ru hi nx lvm1 : Nat),
      ∀ g ∈ pushFrames tbl ro ru hi nx lvm1,
        g.lv = lvm1 ∧ g.next_constraint = nx ∧ g.obj.isSome = true := by
  intro tbl
  induction tbl with
  | nil => intro ro ru hi nx lvm1 g hg; cases hg
  | cons q ts ih =>
    intro ro ru hi nx lvm1 g hg
    rw [pushFrames] at hg
    split at hg
    · cases hg
    · rcases List.mem_cons.mp hg with rfl | hg
      · exact ⟨rfl, rfl, rfl⟩
      · exact ih ro ru hi nx lvm1 g hg

theorem pairwise_getD_le (l : List Nat) (hp : l.Pairwise (fun a b => b ≤ a)) :
    ∀ k k', k ≤ k' → k' < l.length → l.getD k' 0 ≤ l.getD k 0 := by
  intro k k' hkk hk'
  rcases Nat.eq_or_lt_of_le hkk with rfl | hlt
  · exact le_refl _
  · rw [List.getD_eq_getElem _ _ hk', List.getD_eq_getElem _ _ (by omega)]
    exact List.pairwise_iff_getElem.mp hp k k' (by omega) hk' hlt

theorem gateLoop_spec (h : EvenParityConstraintsHelper) (obj : Option CubiePartition)
    (path : List (Option CubiePartition)) (lv : Nat) :
    ∀ (next nx : Nat), next ≤ h.first_constraint_indicies.length →
      gateLoop h obj path lv next = some nx →
      next ≤ nx ∧ nx ≤ h.first_constraint_indicies.length ∧
      (nx = h.first_constraint_indicies.length ∨
        h.first_constraint_indicies.getD nx 0 ≠ lv) ∧
      (∀ k, next ≤ k → k < nx →
        h.first_constraint_indicies.getD k 0 = lv ∧
        (sign ((obj.map CubiePartition.partition).getD []) +
          restSignSum (h.rest_constraint_flags.getD k []) (path.drop (lv + 1))) % 2 = 0) := by
  intro next
  induction next using gateLoop.induct h obj path lv with
  | case1 next hc hbad =>
    intro nx hn hnx
    rw [gateLoop, dif_pos hc, if_pos hbad] at hnx
    cases hnx
  | case2 next hc hok ih =>
    intro nx hn hnx
    rw [gateLoop, dif_pos hc, if_neg hok] at hnx
    obtain ⟨h1, h2, h3, h4⟩ := ih nx (by omega) hnx
    refine ⟨by omega, h2, h3, ?_⟩
    intro k hk1 hk2
    rcases Nat.eq_or_lt_of_le hk1 with rfl | hlt
    · refine ⟨hc.2, ?_⟩
      rw [Decidable.not_not] at hok
      exact hok
    · exact h4 k (by omega) hk2
  | case3 next hc =>
    intro nx hn hnx
    rw [gateLoop, dif_neg hc] at hnx
    rw [Option.some.injEq] at hnx
    subst hnx
    rw [Decidable.not_and_iff_or_not] at hc
    refine ⟨le_refl _, hn, ?_, ?_⟩
    · by_cases hlen : next = h.first_constraint_indicies.length
      · exact Or.inl hlen
      · rcases hc with hc | hc
        · exact absurd (by omega : next < h.first_constraint_indicies.length) hc
        · exact Or.inr hc
    · intro k hk1 hk2
      omega



theorem frame_write_facts (h : EvenParityConstraintsHelper) (L : Nat) (f : Frame)
    (path path1 : List (Option CubiePartition)) (hplen : path.length = L)
    (hfok : FrameOK h L f path)
    (hp1 : path1 = if f.obj.isSome then path.set f.lv f.obj else path) :
    path1.length = L ∧ path1.getD f.lv none = f.obj ∧
    (∀ k, f.lv < h.first_constraint_indicies.getD k 0 →
      gateSum h k path1 = gateSum h k path) ∧
    f.lv ≤ L := by
  unfold FrameOK at hfok
  obtain ⟨hf1, hf2, hf3, hf4, hf5⟩ := hfok
  cases hobj : f.obj with
  | none =>
    have hL : f.lv = L := hf3 hobj
    rw [hobj] at hp1
    simp only [Option.isSome_none, Bool.false_eq_true, if_false] at hp1
    subst hp1
    refine ⟨hplen, ?_, fun k _ => rfl, le_of_eq hL⟩
    exact List.getD_eq_default _ _ (by omega)
  | some q =>
    have hlt : f.lv < L := hf2 (by rw [hobj]; rfl)
    rw [hobj] at hp1
    simp only [Option.isSome_some, if_true] at hp1
    subst hp1
    refine ⟨by rw [List.length_set]; exact hplen, ?_, ?_, le_of_lt hlt⟩
    · exact getD_set_self _ _ _ _ (by omega)
    · intro k hk
      exact gateSum_set_lt h k path f.lv (some q) hk

theorem searchInv_tail (h : EvenParityConstraintsHelper) (L : Nat) (f : Frame)
    (rest : List Frame) (path path1 : List (Option CubiePartition))
    (hinv : SearchInv h L (f :: rest) path)
    (hp1 : path1 = if f.obj.isSome then path.set f.lv f.obj else path) :
    SearchInv h L rest path1 := by
  unfold SearchInv at hinv ⊢
  obtain ⟨hplen, hpair, hfok⟩ := hinv
  have hf := hfok f (List.mem_cons_self _ _)
  obtain ⟨hw1, _, hw3, _⟩ := frame_write_facts h L f path path1 hplen hf hp1
  refine ⟨hw1, (List.pairwise_cons.mp hpair).2, ?_⟩
  intro g hg
  have hgok := hfok g (List.mem_cons_of_mem _ hg)
  have hfg : f.lv ≤ g.lv := (List.pairwise_cons.mp hpair).1 g hg
  unfold FrameOK at hgok ⊢
  obtain ⟨hg1, hg2, hg3, hg4, hg5⟩ := hgok
  refine ⟨hg1, hg2, hg3, hg4, ?_⟩
  intro k hk
  refine ⟨(hg5 k hk).1, ?_⟩
  rw [hw3 k (by have := (hg5 k hk).1; omega)]
  exact (hg5 k hk).2

theorem searchLoop_parity (tables : List (List CubiePartition)) (rub : List Nat)
    (h : EvenParityConstraintsHelper) (share : List Bool)
    (hsorted : h.first_constraint_indicies.Pairwise (fun a b => b ≤ a)) :
    ∀ (stack : List Frame) (path : List (Option CubiePartition)) (highest : Nat)
      (cycles : List Cycle),
      SearchInv h tables.length stack path →
      (∀ cy ∈ cycles, CycleOK h cy) →
      ∀ cy ∈ (searchLoop tables rub h share stack path highest cycles).2, CycleOK h cy := by
  intro stack path highest cycles
  induction stack, path, highest, cycles using searchLoop.induct tables rub h share with
  | case1 path highest cycles =>
    intro hinv hcy
    rw [searchLoop_nil]
    exact hcy
  | case2 f rest path highest cycles path1 hgate ih =>
    intro hinv hcy
    rw [searchLoop_cons_none tables rub h share f rest path highest cycles hgate]
    exact ih (searchInv_tail h tables.length f rest path path1 hinv rfl) hcy
  | case3 f rest path highest cycles path1 nx hgate hlv ih =>
    intro hinv hcy
    rw [searchLoop_cons_some_pos tables rub h share f rest path highest cycles nx hgate hlv]
    apply ih ?_ hcy
    have htail := searchInv_tail h tables.length f rest path path1 hinv rfl
    unfold SearchInv at hinv htail ⊢
    obtain ⟨hplen, hpair, hfok⟩ := hinv
    have hf := hfok f (List.mem_cons_self _ _)
    obtain ⟨hw1, hw2, hw3, hlvL⟩ :=
      frame_write_facts h tables.length f path path1 hplen hf rfl
    unfold FrameOK at hf
    obtain ⟨hf1, hf2, hf3, hf4, hf5⟩ := hf
    obtain ⟨hs1, hs2, hs3, hs4⟩ :=
      gateLoop_spec h f.obj path1 f.lv f.next_constraint nx hf1 hgate
    refine ⟨hw1, ?_, ?_⟩
    · rw [List.pairwise_append]
      refine ⟨?_, htail.2.1, ?_⟩
      · apply List.pairwise_of_forall_mem_list
        intro a ha b hb
        rw [List.mem_reverse] at ha hb
        have ha' := pushFrames_mem _ _ _ _ _ _ a ha
        have hb' := pushFrames_mem _ _ _ _ _ _ b hb
        rw [ha'.1, hb'.1]
      · intro a ha b hb
        rw [List.mem_reverse] at ha
        have ha' := pushFrames_mem _ _ _ _ _ _ a ha
        have hfb : f.lv ≤ b.lv := (List.pairwise_cons.mp hpair).1 b hb
        rw [ha'.1]
        omega
    · intro g hg
      rcases List.mem_append.mp hg with hg | hg
      · rw [List.mem_reverse] at hg
        obtain ⟨hglv, hgnx, hgobj⟩ := pushFrames_mem _ _ _ _ _ _ g hg
        unfold FrameOK
        refine ⟨by rw [hgnx]; exact hs2, ?_, ?_, ?_, ?_⟩
        · intro _
          rw [hglv]
          omega
        · intro hnone
          rw [hnone] at hgobj
          cases hgobj
        · intro k hk1 hk2
          rw [hgnx] at hk1
          rw [hglv]
          rcases hs3 with hnl | hne
          · exact absurd hk2 (by omega)
          · have hmono := pairwise_getD_le _ hsorted nx k hk1 hk2
            have hb := hf4 nx (by omega) (by omega)
            omega
        · intro k hk
          rw [hgnx] at hk
          rw [hglv]
          by_cases hkf : k < f.next_constraint
          · have h5 := hf5 k hkf
            refine ⟨by omega, ?_⟩
            rw [hw3 k (by omega)]
            exact h5.2
          · have hcons := hs4 k (by omega) hk
            refine ⟨by rw [hcons.1]; omega, ?_⟩
            unfold gateSum
            rw [hcons.1, hw2]
            exact hcons.2
      · exact htail.2.2 g hg
  | case4 f rest path highest cycles path1 nx hgate hlv cycles1 hlt ih =>
    intro hinv hcy
    rw [searchLoop_cons_some_zero tables rub h share f rest path highest cycles nx hgate
      (by omega)]
    rw [if_pos hlt]
    have hngt : ¬f.running_order > highest := by omega
    have h1 : cycles1 = cycles := if_neg hngt
    rw [h1] at ih
    rw [if_neg hngt]
    exact ih (searchInv_tail h tables.length f rest path path1 hinv rfl) hcy
  | case5 f rest path highest cycles path1 nx hgate hlv cycles1 hge ih =>
    intro hinv hcy
    rw [searchLoop_cons_some_zero tables rub h share f rest path highest cycles nx hgate
      (by omega)]
    rw [if_neg hge]
    have htail := searchInv_tail h tables.length f rest path path1 hinv rfl
    obtain ⟨hplen, hpair, hfok⟩ := hinv
    have hf := hfok f (List.mem_cons_self _ _)
    obtain ⟨hw1, hw2, hw3, hlvL⟩ :=
      frame_write_facts h tables.length f path path1 hplen hf rfl
    unfold FrameOK at hf
    obtain ⟨hf1, hf2, hf3, hf4, hf5⟩ := hf
    obtain ⟨hs1, hs2, hs3, hs4⟩ :=
      gateLoop_spec h f.obj path1 f.lv f.next_constraint nx hf1 hgate
    have hlv0 : f.lv = 0 := by omega
    have hnxlen : nx = h.first_constraint_indicies.length := by
      rcases hs3 with hl | hne
      · exact hl
      · by_contra hcon
        have hlt2 : nx < h.first_constraint_indicies.length := by omega
        have := hf4 nx (by omega) hlt2
        rw [hlv0] at this
        omega
    apply ih htail ?_
    intro cy hcycle
    rcases List.mem_append.mp hcycle with hc | hc
    · by_cases hgt : f.running_order > highest
      · rw [show cycles1 = [] from if_pos hgt] at hc
        cases hc
      · rw [show cycles1 = cycles from if_neg hgt] at hc
        exact hcy cy hc
    · rw [List.mem_singleton] at hc
      subst hc
      unfold CycleOK
      intro k hk
      dsimp only
      by_cases hkf : k < f.next_constraint
      · have h5 := hf5 k hkf
        rw [hw3 k h5.1]
        exact h5.2
      · have hcons := hs4 k (by omega) (by omega)
        unfold gateSum
        rw [hcons.1, hw2]
        exact hcons.2



theorem fromPuzzleLoop_found (pz : PuzzleOrbitDefinition) :
    ∀ (cs : List EvenParityConstraint) (flags : List Bool)
      (pairs0 : List (Nat × List Bool)) (f : List Bool) (pairs : List (Nat × List Bool)),
      fromPuzzleLoop pz.orbits cs flags pairs0 = some (f, pairs) →
      ∀ c ∈ cs, pz.orbits.findIdx
        (fun orbit => c.orbit_names.any (fun nm => orbit.name == nm)) <
        pz.orbits.length := by
  intro cs
  induction cs with
  | nil =>
    intro flags pairs0 f pairs _ c hc
    cases hc
  | cons c cs ih =>
    intro flags pairs0 f pairs hlp c' hc'
    rw [fromPuzzleLoop] at hlp
    split at hlp
    · cases hlp
    · split at hlp
      · cases hlp
      · rename_i fi hfi
        rcases List.mem_cons.mp hc' with rfl | hc'
        · obtain ⟨hfirst, _⟩ := constraintScan_false c' pz.orbits 0 flags 0
          have henum : pz.orbits.enum = List.enumFrom 0 pz.orbits := rfl
          rw [henum, hfirst] at hfi
          by_contra hcon
          rw [if_neg hcon] at hfi
          cases hfi
        · exact ih _ _ _ _ hlp c' hc'

theorem helper_summaries (pz : PuzzleOrbitDefinition) (h : EvenParityConstraintsHelper)
    (hh : EvenParityConstraintsHelper.from_puzzle_orbit_definition pz = some h) :
    h.first_constraint_indicies.Pairwise (fun a b => b ≤ a) ∧
    (h.first_constraint_indicies.zip h.rest_constraint_flags).Perm
      (pz.even_parity_constraints.map (specConstraintSummary pz)) ∧
    h.first_constraint_indicies.length = h.rest_constraint_flags.length ∧
    (∀ c ∈ pz.even_parity_constraints, pz.orbits.findIdx
      (fun orbit => c.orbit_names.any (fun nm => orbit.name == nm)) <
      pz.orbits.length) := by
  rw [EvenParityConstraintsHelper.from_puzzle_orbit_definition] at hh
  split at hh
  · cases hh
  · rename_i flags pairs hlp
    rw [Option.some.injEq] at hh
    subst hh
    haveI htot : IsTotal (Nat × List Bool) (fun a b => b.1 ≤ a.1) :=
      ⟨fun a b => le_total b.1 a.1⟩
    haveI htr : IsTrans (Nat × List Bool) (fun a b => b.1 ≤ a.1) :=
      ⟨fun _ _ _ hab hbc => le_trans hbc hab⟩
    refine ⟨?_, ?_, by simp, ?_⟩
    · have hs := List.sorted_insertionSort (fun a b : Nat × List Bool => b.1 ≤ a.1) pairs
      exact hs.map Prod.fst (fun a b hab => hab)
    · have hzip : ((List.insertionSort (fun a b : Nat × List Bool => b.1 ≤ a.1)
          pairs).map Prod.fst).zip
          ((List.insertionSort (fun a b : Nat × List Bool => b.1 ≤ a.1) pairs).map
            Prod.snd) =
          List.insertionSort (fun a b : Nat × List Bool => b.1 ≤ a.1) pairs :=
        Eq.symm (List.zip_of_prod rfl rfl)
      rw [hzip]
      have hpairs := fromPuzzleLoop_pairs pz pz.even_parity_constraints _ _ _ _ hlp
      rw [List.nil_append] at hpairs
      rw [← hpairs]
      exact List.perm_insertionSort _ _
    · exact fromPuzzleLoop_found pz pz.even_parity_constraints _ _ _ _ hlp



theorem foldl_add_eq_sum {α : Type} (g : α → Int) :
    ∀ (l : List α) (a : Int), l.foldl (fun acc x => acc + g x) a = a + (l.map g).sum := by
  intro l
  induction l with
  | nil => intro a; simp
  | cons x xs ih =>
    intro a
    rw [List.foldl_cons, ih, List.map_cons, List.sum_cons]
    ring

theorem restSignSum_eq_sum (flags : List Bool) (tail : List (Option CubiePartition)) :
    restSignSum flags tail =
      (((tail.zip flags).filter (fun x => x.2)).map
        (fun x => sign ((x.1.map CubiePartition.partition).getD []))).sum := by
  unfold restSignSum
  rw [foldl_add_eq_sum]
  ring

theorem zipflag_filter_eq (part : Orbit → Bool) :
    ∀ (A : List Orbit) (P : List (Option CubiePartition)),
      ((P.zip (A.map part)).filter (fun x => x.2)).map
        (fun x => sign ((x.1.map CubiePartition.partition).getD [])) =
      ((A.zip P).filter (fun op => part op.1)).map
        (fun op => sign ((op.2.map CubiePartition.partition).getD [])) := by
  intro A
  induction A with
  | nil => intro P; simp
  | cons a A ih =>
    intro P
    cases P with
    | nil => simp
    | cons p P =>
      rw [List.map_cons, List.zip_cons_cons, List.zip_cons_cons]
      by_cases hp : part a = true
      · rw [List.filter_cons_of_pos (by simpa using hp),
          List.filter_cons_of_pos (by simpa using hp)]
        rw [List.map_cons, List.map_cons, ih]
      · rw [List.filter_cons_of_neg (by simpa using hp),
          List.filter_cons_of_neg (by simpa using hp)]
        exact ih P

theorem filter_zip_skip (part : Orbit → Bool) :
    ∀ (n : Nat) (A : List Orbit) (P : List (Option CubiePartition)),
      (∀ (i : Nat) (hi : i < A.length), i < n → part (A.get ⟨i, hi⟩) = false) →
      (A.zip P).filter (fun op => part op.1) =
        ((A.drop n).zip (P.drop n)).filter (fun op => part op.1) := by
  intro n
  induction n with
  | zero => intro A P _; simp
  | succ m ih =>
    intro A P hno
    cases A with
    | nil => simp
    | cons a A =>
      cases P with
      | nil => simp
      | cons p P =>
        rw [List.zip_cons_cons,
          List.filter_cons_of_neg (by simpa using hno 0 (by simp) (by omega)),
          List.drop_succ_cons, List.drop_succ_cons]
        exact ih A P (fun i hi him => hno (i + 1) (by simpa using hi) (by omega))

theorem sign_nil : sign [] = 0 := rfl

theorem restSignSum_nil (flags : List Bool) : restSignSum flags [] = 0 := rfl

theorem gateSum_eq_constraintSignSum (pz : PuzzleOrbitDefinition)
    (c : EvenParityConstraint) (h : EvenParityConstraintsHelper) (k : Nat)
    (path : List (Option CubiePartition))
    (hfi : h.first_constraint_indicies.getD k 0 = (specConstraintSummary pz c).1)
    (hfl : h.rest_constraint_flags.getD k [] = (specConstraintSummary pz c).2)
    (hfound : pz.orbits.findIdx
        (fun orbit => c.orbit_names.any (fun nm => orbit.name == nm)) <
      pz.orbits.length) :
    gateSum h k path = constraintSignSum pz c path := by
  unfold gateSum constraintSignSum
  rw [hfi, hfl]
  unfold specConstraintSummary
  dsimp only
  rw [filter_zip_skip (fun orbit => c.orbit_names.any (fun nm => orbit.name == nm))
    (pz.orbits.findIdx (fun orbit => c.orbit_names.any (fun nm => orbit.name == nm)))
    pz.orbits path
    (fun i hi hilt => List.not_of_lt_findIdx hilt)]
  by_cases hP : pz.orbits.findIdx
      (fun orbit => c.orbit_names.any (fun nm => orbit.name == nm)) < path.length
  · rw [List.drop_eq_getElem_cons hfound, List.drop_eq_getElem_cons hP,
      List.zip_cons_cons,
      List.filter_cons_of_pos (by simpa using List.findIdx_getElem (w := hfound)),
      List.map_cons, List.sum_cons]
    rw [List.getD_eq_getElem _ _ hP]
    rw [restSignSum_eq_sum, zipflag_filter_eq]
  · have hdge : path.length ≤ pz.orbits.findIdx
        (fun orbit => c.orbit_names.any (fun nm => orbit.name == nm)) := by omega
    have hnil1 : List.drop (pz.orbits.findIdx
        (fun orbit => c.orbit_names.any (fun nm => orbit.name == nm))) path = [] :=
      List.drop_eq_nil_of_le hdge
    have hnil2 : List.drop (pz.orbits.findIdx
        (fun orbit => c.orbit_names.any (fun nm => orbit.name == nm)) + 1) path = [] :=
      List.drop_eq_nil_of_le (by omega)
    rw [hnil1, List.zip_nil_right]
    rw [List.getD_eq_default _ _ (by omega)]
    rw [hnil2, restSignSum_nil]
    simp [sign]



theorem searchIteration_parity (ccc : List Nat) (pz : PuzzleOrbitDefinition)
    (h : EvenParityConstraintsHelper) (highest : Nat) (free : List Bool)
    (hsorted : h.first_constraint_indicies.Pairwise (fun a b => b ≤ a))
    (hbound : ∀ k, k < h.first_constraint_indicies.length →
      h.first_constraint_indicies.getD k 0 ≤ ccc.length) :
    ∀ cy ∈ (searchIteration ccc pz h highest free).2, CycleOK h cy := by
  intro cy hcy
  unfold searchIteration at hcy
  refine searchLoop_parity _ _ h _ hsorted _ _ _ _ ?_ (by intro c hc; cases hc) cy hcy
  unfold SearchInv
  refine ⟨List.length_replicate _ _, List.pairwise_singleton _ _, ?_⟩
  intro f hf
  rw [List.mem_singleton] at hf
  subst hf
  unfold FrameOK
  refine ⟨by dsimp only; omega, ?_, fun _ => rfl, ?_, ?_⟩
  · intro hsome
    simp at hsome
  · intro k _ hk
    have := hbound k hk
    dsimp only
    rw [List.length_map, List.length_range]
    exact this
  · intro k hk
    dsimp only at hk
    omega

theorem searchFold_parity (ccc : List Nat) (pz : PuzzleOrbitDefinition)
    (h : EvenParityConstraintsHelper)
    (hsorted : h.first_constraint_indicies.Pairwise (fun a b => b ≤ a))
    (hbound : ∀ k, k < h.first_constraint_indicies.length →
      h.first_constraint_indicies.getD k 0 ≤ ccc.length) :
    ∀ (fs : List (List Bool)) (st : Nat × List Cycle),
      (∀ cy ∈ st.2, CycleOK h cy) →
      ∀ cy ∈ (fs.foldl (fun st free =>
          let res := searchIteration ccc pz h st.1 free
          (res.1, st.2 ++ res.2)) st).2, CycleOK h cy := by
  intro fs
  induction fs with
  | nil =>
    intro st hst
    exact hst
  | cons free fs ih =>
    intro st hst
    rw [List.foldl_cons]
    refine ih ((searchIteration ccc pz h st.1 free).1,
      st.2 ++ (searchIteration ccc pz h st.1 free).2) ?_
    intro cy hcy
    rcases List.mem_append.mp hcy with hcy | hcy
    · exact hst cy hcy
    · exact searchIteration_parity ccc pz h st.1 free hsorted hbound cy hcy

/-- C1 (confirmed): for a parity helper successfully built from the puzzle
definition and a cubie-count vector covering all orbits, every `Cycle`
returned by `highest_order_cycles_from_cubie_counts` satisfies every
`EvenParityConstraint` of the puzzle: the sum, over the constraint's
orbits, of the signatures of the cycle's per-orbit partitions is even.
The first-index/rest-flags gate enforces exactly the constraint's orbit
set: each constraint is checked when the search writes the smallest
participating orbit index, against exactly the participating positions
above it, and those positions never change afterwards on that branch. -/
theorem C1_parity_invariant (pz : PuzzleOrbitDefinition) (h : EvenParityConstraintsHelper)
    (ccc : List Nat)
    (hh : EvenParityConstraintsHelper.from_puzzle_orbit_definition pz = some h)
    (hlen : pz.orbits.length ≤ ccc.length) :
    ∀ cy ∈ highest_order_cycles_from_cubie_counts ccc pz h,
      ∀ c ∈ pz.even_parity_constraints,
        constraintSignSum pz c cy.partition_objs % 2 = 0 := by
  obtain ⟨hsorted, hperm, hleneq, hfound⟩ := helper_summaries pz h hh
  have hfirstlt : ∀ k, k < h.first_constraint_indicies.length →
      h.first_constraint_indicies.getD k 0 < pz.orbits.length := by
    intro k hk
    have hkzip : k < (h.first_constraint_indicies.zip h.rest_constraint_flags).length := by
      rw [List.length_zip]
      omega
    have hmemzip := List.get_mem (h.first_constraint_indicies.zip h.rest_constraint_flags)
      k hkzip
    rcases List.mem_map.mp (hperm.mem_iff.mp hmemzip) with ⟨c, hcmem, hceq⟩
    have hzipk : (h.first_constraint_indicies.zip h.rest_constraint_flags).get ⟨k, hkzip⟩ =
        (h.first_constraint_indicies.getD k 0, h.rest_constraint_flags.getD k []) := by
      rw [List.get_eq_getElem, List.getElem_zip, List.getD_eq_getElem _ _ hk,
        List.getD_eq_getElem _ _ (by omega)]
    rw [hzipk] at hceq
    have hfst := congrArg Prod.fst hceq
    dsimp only at hfst
    rw [← hfst]
    unfold specConstraintSummary
    exact hfound c hcmem
  have hbound : ∀ k, k < h.first_constraint_indicies.length →
      h.first_constraint_indicies.getD k 0 ≤ ccc.length := by
    intro k hk
    have := hfirstlt k hk
    omega
  intro cy hcy c hc
  have hcyok : CycleOK h cy := by
    have heq : highest_order_cycles_from_cubie_counts ccc pz h =
        (searchFold ccc pz h).2 := rfl
    rw [heq] at hcy
    exact searchFold_parity ccc pz h hsorted hbound _ (1, [])
      (by intro c' hc'; cases hc') cy hcy
  have hsum : specConstraintSummary pz c ∈
      h.first_constraint_indicies.zip h.rest_constraint_flags :=
    hperm.mem_iff.mpr (List.mem_map.mpr ⟨c, hc, rfl⟩)
  obtain ⟨⟨k, hkzip⟩, hkeq⟩ := List.mem_iff_get.mp hsum
  have hk1 : k < h.first_constraint_indicies.length := by
    rw [List.length_zip] at hkzip
    omega
  have hk2 : k < h.rest_constraint_flags.length := by
    rw [List.length_zip] at hkzip
    omega
  have hzipk : (h.first_constraint_indicies.zip h.rest_constraint_flags).get ⟨k, hkzip⟩ =
      (h.first_constraint_indicies.getD k 0, h.rest_constraint_flags.getD k []) := by
    rw [List.get_eq_getElem, List.getElem_zip, List.getD_eq_getElem _ _ hk1,
      List.getD_eq_getElem _ _ hk2]
  rw [hzipk] at hkeq
  have hfi := congrArg Prod.fst hkeq
  have hfl := congrArg Prod.snd hkeq
  dsimp only at hfi hfl
  rw [← gateSum_eq_constraintSignSum pz c h k cy.partition_objs hfi hfl (hfound c hc)]
  exact hcyok k hk1



unseal p_adic_valuation integer_partitions gateLoop searchLoop in
theorem C1_parity_invariant_witness :
    EvenParityConstraintsHelper.from_puzzle_orbit_definition twoParityPuzzle =
        some ⟨[0], [[true]], [true, true]⟩ ∧
    twoParityPuzzle.orbits.length ≤ ([2, 2] : List Nat).length ∧
    ((highest_order_cycles_from_cubie_counts [2, 2] twoParityPuzzle
        ⟨[0], [[true]], [true, true]⟩).headD defaultCycle ∈
      highest_order_cycles_from_cubie_counts [2, 2] twoParityPuzzle
        ⟨[0], [[true]], [true, true]⟩) ∧
    constraintSignSum twoParityPuzzle ⟨["a", "b"]⟩
        ((highest_order_cycles_from_cubie_counts [2, 2] twoParityPuzzle
          ⟨[0], [[true]], [true, true]⟩).headD defaultCycle).partition_objs % 2 = 0 :=
  ⟨by decide, by decide, by decide,
    C1_parity_invariant twoParityPuzzle ⟨[0], [[true]], [true, true]⟩ [2, 2]
      (by decide) (by decide) _ (by decide) ⟨["a", "b"]⟩ (by decide)⟩

end Qter
